import Mathlib

/-!
Shallow embedding of the seed-generation engine in `src/src/index.ts`
(`devio-seed`).  The source file contains three near-duplicate variants of
the same engine; per the specification they are treated as one canonical
design, and the functions below are translated from the first variant
(the one with the second-record self-relation strategy), with the third
variant's inline payload assembly also embedded where a claim cites it.

Modelling conventions
* JavaScript objects used as string-keyed maps (`graph`, `inDegree`,
  `modelDataMap`, `data`) are embedded as insertion-ordered association
  lists `List (String × β)`; property assignment is `objUpsert`
  (replace in place, else append), property update is `adjustA`.
* JavaScript `Set` (insertion ordered, deduplicated) is a `List String`
  with `setAdd`.
* `Math.random()` and `new Date()` are nondeterministic; they are
  supplied by a `GenEnv` parameter.  No claim depends on those values.
* The Prisma client is an external collaborator; it is supplied as a
  `Collab` parameter mapping a call counter, model name and payload to
  `Option Record` (`none` models a rejected create/update).  The call
  counter makes the oracle able to encode any behaviour of the real
  collaborator, since calls are issued strictly sequentially.
* `relationFromFields` / `relationToFields` are embedded as `List String`
  with `[]` standing for both the absent and the empty value: every use
  site in the source guards with `!x || x.length === 0` or `x?.length`,
  so the two are indistinguishable there (Prisma's DMMF always supplies
  both together on a relation side that owns foreign keys).
* `inDegree[ref]--` on a key that is absent stores `NaN` in the source;
  such an entry can never satisfy `=== 0` nor `> 0`, so it is
  unobservable in the output and is embedded as a no-op.
-/

set_option linter.unusedVariables false

namespace Seed

/-- Primitive JavaScript values produced by the scalar synthesizer and
stored in persisted records. -/
inductive JPrim where
  | undefined
  | null
  | bool (b : Bool)
  | int (n : Int)
  | float (q : Rat)
  | str (s : String)
  | time (t : Int)
  | jsonExample
  | emptyList
deriving DecidableEq

/-- A persisted record as the engine sees it: a field-name-to-value map. -/
abbrev Record := List (String × JPrim)

/-- A value stored in a creation payload: either a primitive or a
`{ connect: {...} }` instruction. -/
inductive JValue where
  | prim (p : JPrim)
  | connect (pairs : List (String × JPrim))
deriving DecidableEq

/-- A creation payload (the `data` object). -/
abbrev Data := List (String × JValue)

/-- A DMMF field descriptor (the subset of properties the engine reads). -/
structure Field where
  name : String
  kind : String
  type : String
  isId : Bool
  isUnique : Bool
  isList : Bool
  isRequired : Bool
  isReadOnly : Bool
  relationFromFields : List String
  relationToFields : List String
deriving DecidableEq

/-- A DMMF model descriptor. -/
structure Model where
  name : String
  fields : List Field
deriving DecidableEq

/-- The DMMF datamodel wrapper (`dmmf.datamodel.models`). -/
structure Datamodel where
  models : List Model
deriving DecidableEq

/-- The DMMF as returned by the schema provider. -/
structure DMMF where
  datamodel : Datamodel
deriving DecidableEq

/-- Environment supplying the nondeterministic ingredients of
`generateFakeValueForField`: the random token drawn for a unique string
field, and the current time. -/
structure GenEnv where
  rand : String → String
  now : Int

/-- Association-list lookup: the value of key `k` in a JS object. -/
def lookupA {β : Type} (l : List (String × β)) (k : String) : Option β :=
  match l with
  | [] => none
  | (k', v) :: t => if k' = k then some v else lookupA t k

/-- JS object property assignment `o[k] = v`: replace in place if the key
exists, append otherwise. -/
def objUpsert {β : Type} (l : List (String × β)) (k : String) (v : β) :
    List (String × β) :=
  match l with
  | [] => [(k, v)]
  | (k', v') :: t =>
      if k' = k then (k', v) :: t else (k', v') :: objUpsert t k v

/-- In-place update of the value stored under key `k` (no-op if absent). -/
def adjustA {β : Type} (l : List (String × β)) (k : String) (f : β → β) :
    List (String × β) :=
  match l with
  | [] => []
  | (k', v) :: t =>
      if k' = k then (k', f v) :: t else (k', v) :: adjustA t k f

/-- Overwrite the value stored under key `k` (no-op if absent; see the
note on `inDegree[ref]--` in the file header). -/
def setValA {β : Type} (l : List (String × β)) (k : String) (v : β) :
    List (String × β) :=
  adjustA l k (fun _ => v)

/-- JS `Set.add`: append if not already present. -/
def setAdd (s : List String) (x : String) : List String :=
  if x ∈ s then s else s ++ [x]

/-- `generateFakeValueForField` from the source: placeholder value for a
scalar field descriptor. -/
def generateFakeValueForField (env : GenEnv) (f : Field) : JPrim :=
  if f.isList then .emptyList
  else match f.type with
  | "String" =>
      if f.isId then .undefined
      else if f.isUnique then .str ("unique_" ++ env.rand f.name)
      else .str ("fake_" ++ f.name)
  | "Int" => .int 123
  | "Float" => .float (123 / 100 : Rat)
  | "Boolean" => .bool false
  | "DateTime" => .time env.now
  | "Json" => .jsonExample
  | _ => if f.isRequired then .str ("fake_" ++ f.name) else .null

/-- A node of the dependency graph. -/
structure GNode where
  name : String
  dependsOn : List String
  referencedBy : List String
deriving DecidableEq

/-- The dependency graph: a JS object mapping model name to node. -/
abbrev Graph := List (String × GNode)

/-- First loop of `buildDependencyGraph`: create a fresh node per model. -/
def initNodes : List Model → Graph → Graph
  | [], g => g
  | m :: ms, g => initNodes ms (objUpsert g m.name ⟨m.name, [], []⟩)

/-- Wire one `dependsOn`/`referencedBy` edge pair from `src` to `dst`. -/
def addEdge (g : Graph) (src dst : String) : Graph :=
  let g1 := adjustA g src (fun n => { n with dependsOn := setAdd n.dependsOn dst })
  adjustA g1 dst (fun n => { n with referencedBy := setAdd n.referencedBy src })

/-- Second loop of `buildDependencyGraph`, inner iteration over the fields
of model `mn`. -/
def addModelEdges (mn : String) : List Field → Graph → Graph
  | [], g => g
  | f :: fs, g =>
      let g' :=
        if f.kind = "object" ∧ f.isList = false ∧ f.isRequired = true then
          match lookupA g f.type with
          | some _ => addEdge g mn f.type
          | none => g
        else g
      addModelEdges mn fs g'

/-- Second loop of `buildDependencyGraph`, outer iteration over models. -/
def addAllEdges : List Model → Graph → Graph
  | [], g => g
  | m :: ms, g => addAllEdges ms (addModelEdges m.name m.fields g)

/-- `buildDependencyGraph` from the source. -/
def buildDependencyGraph (models : List Model) : Graph :=
  addAllEdges models (initNodes models [])

/-- One iteration of the `forEach` over `graph[current].referencedBy` in
`topologicalSort`: decrement the in-degree of each referenced node and
collect (in order) the nodes whose in-degree reached zero. -/
def processRefs (inDeg : List (String × Int)) :
    List String → List (String × Int) × List String
  | [] => (inDeg, [])
  | r :: rs =>
      match lookupA inDeg r with
      | some v =>
          let pr := processRefs (setValA inDeg r (v - 1)) rs
          (pr.1, (if v - 1 = 0 then [r] else []) ++ pr.2)
      | none => processRefs inDeg rs

/-- Fuel measure for the Kahn loop: total positive in-degree plus queue
length.  Each iteration strictly decreases it. -/
def degMeasure (l : List (String × Int)) : Nat :=
  (l.map (fun p => p.2.toNat)).sum

/-- The `while (queue.length)` loop of `topologicalSort`, with explicit
fuel (the loop strictly decreases `degMeasure inDeg + queue.length`, and
it is always called with that much fuel, so the fuel never runs out). -/
def kahnLoopF (g : Graph) :
    Nat → List (String × Int) → List String → List String →
    List (String × Int) × List String
  | 0, inDeg, _, sorted => (inDeg, sorted)
  | fuel + 1, inDeg, queue, sorted =>
      match queue with
      | [] => (inDeg, sorted)
      | current :: rest =>
          let n := (lookupA g current).getD ⟨current, [], []⟩
          let pr := processRefs inDeg n.referencedBy
          kahnLoopF g fuel pr.1 (rest ++ pr.2) (sorted ++ [current])

/-- The initial `inDegree` object of `topologicalSort`: each node's
`dependsOn.size`. -/
def initInDeg (g : Graph) : List (String × Int) :=
  g.map (fun p => (p.1, (p.2.dependsOn.length : Int)))

/-- The initial queue of `topologicalSort`: all keys with in-degree 0, in
key order. -/
def initQueue (g : Graph) : List String :=
  ((initInDeg g).map Prod.fst).filter
    (fun m => decide (lookupA (initInDeg g) m = some 0))

/-- The full run of the Kahn loop from the initial state. -/
def kahnRun (g : Graph) : List (String × Int) × List String :=
  kahnLoopF g (degMeasure (initInDeg g) + (initQueue g).length)
    (initInDeg g) (initQueue g) []

/-- `topologicalSort` from the source: Kahn's algorithm with the cyclic
remainder appended in key order. -/
def topologicalSort (g : Graph) : List String :=
  let r := kahnRun g
  if r.2.length < g.length then
    r.2 ++ (r.1.map Prod.fst).filter
      (fun m => decide (0 < (lookupA r.1 m).getD 0))
  else r.2

/-- Per-entity-type run state. -/
structure ModelData where
  model : Model
  createdRecords : List Record
  created : Bool
deriving DecidableEq

/-- The run-state map (`modelDataMap`). -/
abbrev MDMap := List (String × ModelData)

/-- The persistence collaborator (the Prisma client): `create` and
`update` take the current call counter, the model name and the payload,
and return the persisted record or `none` on failure. -/
structure Collab where
  create : Nat → String → Data → Option Record
  update : Nat → String → JPrim → Data → Option Record

/-- Read a field back from a persisted record (`record[key]`; absent
properties read as `undefined`). -/
def recLookup (rec : Record) (k : String) : JPrim :=
  (lookupA rec k).getD .undefined

/-- Whether any local foreign-key field backing relation field `f` is
required (the `anyFKrequired` flag in the source). -/
def anyFKrequired (model : Model) (f : Field) : Bool :=
  f.relationFromFields.any (fun fk =>
    match model.fields.find? (fun fd => decide (fd.name = fk)) with
    | some fd => fd.isRequired
    | none => false)

/-- Build the `connect` key map for relation field `f` from record `rec`
(the source special-cases `relationToFields.length === 1`, producing the
same map). -/
def connPairs (f : Field) (rec : Record) : List (String × JPrim) :=
  match f.relationToFields with
  | [rk] => [(rk, recLookup rec rk)]
  | rks => rks.map (fun rk => (rk, recLookup rec rk))

/-- First loop of `buildCreationData` (variant 1): scalar fields, skipping
read-only fields and foreign-key scalars. -/
def scalarData (env : GenEnv) (model : Model) : List Field → Data → Data
  | [], d => d
  | f :: fs, d =>
      let d' :=
        if f.kind = "scalar" ∧ f.isReadOnly = false then
          if model.fields.any (fun f2 =>
              decide (f2.kind = "object" ∧ f.name ∈ f2.relationFromFields)) then
            d
          else objUpsert d f.name (.prim (generateFakeValueForField env f))
        else d
      scalarData env model fs d'

/-- One iteration of the second loop of `buildCreationData` (variant 1):
non-list, non-self relation fields with foreign keys. -/
def relStep (mdm : MDMap) (modelName : String) (model : Model)
    (f : Field) (d : Data) : Data :=
  if f.kind ≠ "object" then d
  else if f.type = modelName then d
  else if f.isList = true then d
  else if f.relationFromFields = [] then d
  else
    match lookupA mdm f.type with
    | none =>
        if anyFKrequired model f then objUpsert d f.name (.prim .undefined) else d
    | some related =>
        match related.createdRecords.head? with
        | some rec => objUpsert d f.name (.connect (connPairs f rec))
        | none => objUpsert d f.name (.prim .undefined)

/-- Second loop of `buildCreationData` (variant 1). -/
def relationData (mdm : MDMap) (modelName : String) (model : Model) :
    List Field → Data → Data
  | [], d => d
  | f :: fs, d => relationData mdm modelName model fs (relStep mdm modelName model f d)

/-- `buildCreationData` from the source (variant 1).  The source reads
`modelDataMap[modelName].model`; the `none` branch is unreachable in any
program run (the name always comes from the map's own keys). -/
def buildCreationData (env : GenEnv) (mdm : MDMap) (modelName : String) : Data :=
  match lookupA mdm modelName with
  | none => []
  | some md =>
      relationData mdm modelName md.model md.model.fields
        (scalarData env md.model md.model.fields [])

/-- `tryCreateOneRecord` from the source (variant 1): build the payload,
submit it; on success append the record, on failure leave the run state
untouched and report `false`. -/
def tryCreateOneRecord (o : Collab) (env : GenEnv) (mdm : MDMap)
    (name : String) (calls : Nat) : MDMap × Bool :=
  let data := buildCreationData env mdm name
  match o.create calls name data with
  | some created =>
      (adjustA mdm name (fun md =>
        { md with createdRecords := md.createdRecords ++ [created] }), true)
  | none => (mdm, false)

/-- The inner `for (const modelName of sortedModelNames)` of a single pass
of `multiPassCreate`: skip created types, attempt the rest, track whether
anything was created this pass.  The `Nat` component threads the
collaborator call counter. -/
def passOnce (o : Collab) (env : GenEnv) :
    List String → MDMap → Nat → Bool → MDMap × Nat × Bool
  | [], mdm, calls, progress => (mdm, calls, progress)
  | n :: rest, mdm, calls, progress =>
      if ((lookupA mdm n).map ModelData.created).getD false then
        passOnce o env rest mdm calls progress
      else
        let r := tryCreateOneRecord o env mdm n calls
        let mdm' :=
          if r.2 then adjustA r.1 n (fun md => { md with created := true })
          else r.1
        passOnce o env rest mdm' (calls + 1) (progress || r.2)

/-- The `while (pass <= maxPasses)` loop of `multiPassCreate`.  The third
component records, in order, whether each executed pass created anything
(`createdAlgoNestaPassada`); its length is the number of passes run. -/
def passLoop (o : Collab) (env : GenEnv) (names : List String) :
    Nat → MDMap → Nat → MDMap × Nat × List Bool
  | 0, mdm, calls => (mdm, calls, [])
  | fuel + 1, mdm, calls =>
      let r := passOnce o env names mdm calls false
      if r.2.2 then
        let r2 := passLoop o env names fuel r.1 r.2.1
        (r2.1, r2.2.1, true :: r2.2.2)
      else (r.1, r.2.1, [false])

/-- Initialisation of `modelDataMap`. -/
def initMDMap : List Model → MDMap → MDMap
  | [], acc => acc
  | m :: ms, acc => initMDMap ms (objUpsert acc m.name ⟨m, [], false⟩)

/-- `multiPassCreate` from the source.  Returns the final run-state map,
the collaborator call counter, and the per-pass progress flags. -/
def multiPassCreate (o : Collab) (env : GenEnv) (dmmf : DMMF)
    (maxPasses : Nat) : MDMap × Nat × List Bool :=
  let models := dmmf.datamodel.models
  let graph := buildDependencyGraph models
  let sortedModelNames := topologicalSort graph
  let mdm0 := initMDMap models []
  passLoop o env sortedModelNames maxPasses mdm0 0

/-- `isSelfRelationModel` from the source. -/
def isSelfRelationModel (m : Model) : Bool :=
  m.fields.any (fun f =>
    decide (f.kind = "object" ∧ f.type = m.name ∧ f.isList = false))

/-- Models the `new Date(x).getTime()` coercion applied to the first
record's `createdAt`.  No claim depends on this value. -/
def toTime : JPrim → Int
  | .time t => t
  | .int n => n
  | _ => 0

/-- `createAdditionalSelfRelationRecord` from the source (variant 1):
ensure a first record exists, build a full payload, overwrite the
self-relation field to connect to the first record, create the second
record and back-date its `createdAt`; failures are caught and leave the
state unchanged. -/
def createAdditionalSelfRelationRecord (o : Collab) (env : GenEnv)
    (mdm : MDMap) (name : String) (calls : Nat) : MDMap × Nat :=
  match lookupA mdm name with
  | none => (mdm, calls)
  | some md0 =>
      let step1 : MDMap × Nat × Bool :=
        if md0.createdRecords.isEmpty then
          let r := tryCreateOneRecord o env mdm name calls
          (r.1, calls + 1, r.2)
        else (mdm, calls, true)
      if step1.2.2 = false then (step1.1, step1.2.1)
      else
        match lookupA step1.1 name with
        | none => (step1.1, step1.2.1)
        | some md =>
            match md.createdRecords.head? with
            | none => (step1.1, step1.2.1)
            | some firstRecord =>
                let data0 := buildCreationData env step1.1 name
                let selfField := md.model.fields.find? (fun f =>
                  decide (f.kind = "object" ∧ f.type = name ∧ f.isList = false))
                let data :=
                  match selfField with
                  | some sf => objUpsert data0 sf.name (.connect (connPairs sf firstRecord))
                  | none => data0
                let c := step1.2.1
                match o.create c name data with
                | none => (step1.1, c + 1)
                | some second =>
                    let newT : Int := toTime (recLookup firstRecord "createdAt") - 1000
                    match o.update (c + 1) name (recLookup second "id")
                        [("createdAt", .prim (.time newT))] with
                    | none => (step1.1, c + 2)
                    | some second2 =>
                        (adjustA step1.1 name (fun m2 =>
                          { m2 with createdRecords := m2.createdRecords ++ [second2] }),
                         c + 2)

/-- The `for (const modelName in modelDataMap)` phase of `generateSeedData`
(variant 1): for self-relation models with fewer than two records, create
the additional linked record. -/
def selfRelationPhase (o : Collab) (env : GenEnv) :
    List String → MDMap → Nat → MDMap × Nat
  | [], mdm, calls => (mdm, calls)
  | k :: ks, mdm, calls =>
      match lookupA mdm k with
      | some md =>
          if isSelfRelationModel md.model ∧ md.createdRecords.length < 2 then
            let r := createAdditionalSelfRelationRecord o env mdm k calls
            selfRelationPhase o env ks r.1 r.2
          else selfRelationPhase o env ks mdm calls
      | none => selfRelationPhase o env ks mdm calls

/-- `generateSeedData` from the source (variant 1).  The schema load is
supplied as `loadResult` (its failure is the `catch`-and-rethrow path).
The second component of the result records that the `finally` block ran,
i.e. that `prisma.$disconnect()` was attempted before returning or
rethrowing. -/
def generateSeedData (o : Collab) (env : GenEnv)
    (loadResult : Except String DMMF) : Except String Unit × Bool :=
  match loadResult with
  | .error e => (.error e, true)
  | .ok dmmf =>
      let r := multiPassCreate o env dmmf 5
      let mdm := r.1
      let _final := selfRelationPhase o env (mdm.map Prod.fst) mdm r.2.1
      (.ok (), true)

/-- Scalar loop of the inline payload assembly in variant 3's
`tryCreateOneRecord` (no foreign-key skip). -/
def scalarDataV3 (env : GenEnv) : List Field → Data → Data
  | [], d => d
  | f :: fs, d =>
      let d' :=
        if f.kind = "scalar" ∧ f.isReadOnly = false then
          objUpsert d f.name (.prim (generateFakeValueForField env f))
        else d
      scalarDataV3 env fs d'

/-- One iteration of the relation loop of variant 3's inline payload
assembly: like variant 1 but with no self-relation skip (the final
`if (anyFKrequired)` in the source assigns `undefined` on both branches). -/
def relStepV3 (mdm : MDMap) (model : Model) (f : Field) (d : Data) : Data :=
  if f.kind ≠ "object" then d
  else if f.isList = true then d
  else if f.relationFromFields = [] then d
  else
    match lookupA mdm f.type with
    | none =>
        if anyFKrequired model f then objUpsert d f.name (.prim .undefined) else d
    | some related =>
        match related.createdRecords.head? with
        | some rec => objUpsert d f.name (.connect (connPairs f rec))
        | none =>
            if anyFKrequired model f then objUpsert d f.name (.prim .undefined)
            else objUpsert d f.name (.prim .undefined)

/-- Relation loop of variant 3's inline payload assembly. -/
def relationDataV3 (mdm : MDMap) (model : Model) : List Field → Data → Data
  | [], d => d
  | f :: fs, d => relationDataV3 mdm model fs (relStepV3 mdm model f d)

/-- The payload assembled inline by variant 3's `tryCreateOneRecord`. -/
def buildCreationDataV3 (env : GenEnv) (mdm : MDMap) (modelName : String) : Data :=
  match lookupA mdm modelName with
  | none => []
  | some md =>
      relationDataV3 mdm md.model md.model.fields
        (scalarDataV3 env md.model.fields [])

/-- The edge relation of a dependency graph: `edgeRel g b a` holds when
node `a` depends on `b`. -/
def edgeRel (g : Graph) (b a : String) : Prop :=
  ∃ n, lookupA g a = some n ∧ b ∈ n.dependsOn

/-- A dependency graph is acyclic when its edge relation is well-founded
(for a finite graph this is exactly the absence of dependency cycles). -/
def AcyclicGraph (g : Graph) : Prop :=
  WellFounded (edgeRel g)

/-- Position of the first occurrence of `a` in `l` (length of `l` if
absent); used to state "occurs before" for the topological order. -/
def idxOf (l : List String) (a : String) : Nat :=
  match l with
  | [] => 0
  | b :: t => if b = a then 0 else idxOf t a + 1

/-- Structural well-formedness of a dependency graph, established for
every output of `buildDependencyGraph`: keys are distinct, edge lists are
deduplicated sets over the key set, and `referencedBy` is the exact
inverse of `dependsOn`. -/
structure WFGraph (g : Graph) : Prop where
  keysNodup : (g.map Prod.fst).Nodup
  depNodup : ∀ a n, lookupA g a = some n → n.dependsOn.Nodup
  refNodup : ∀ a n, lookupA g a = some n → n.referencedBy.Nodup
  depKeys : ∀ a n, lookupA g a = some n → ∀ b ∈ n.dependsOn, b ∈ g.map Prod.fst
  refKeys : ∀ a n, lookupA g a = some n → ∀ b ∈ n.referencedBy, b ∈ g.map Prod.fst
  inverse : ∀ a na b nb, lookupA g a = some na → lookupA g b = some nb →
    (b ∈ na.dependsOn ↔ a ∈ nb.referencedBy)

/-- Loop invariant of the Kahn loop in `topologicalSort`: the in-degree
book-keeping counts the dependencies not yet emitted, the queue holds
exactly the not-yet-emitted nodes whose dependencies are all emitted, and
the emitted list respects the dependency order. -/
structure KInv (g : Graph) (inDeg : List (String × Int))
    (queue sorted : List String) : Prop where
  degKeys : inDeg.map Prod.fst = g.map Prod.fst
  degVal : ∀ a n, lookupA g a = some n →
    lookupA inDeg a =
      some ((n.dependsOn.filter (fun b => decide (b ∉ sorted))).length : Int)
  sortedKeys : ∀ a ∈ sorted, a ∈ g.map Prod.fst
  queueKeys : ∀ a ∈ queue, a ∈ g.map Prod.fst
  sortedNodup : sorted.Nodup
  queueNodup : queue.Nodup
  disj : ∀ a ∈ queue, a ∉ sorted
  completeIff : ∀ a n, lookupA g a = some n →
    ((∀ b ∈ n.dependsOn, b ∈ sorted) ↔ (a ∈ sorted ∨ a ∈ queue))
  ordered : ∀ a ∈ sorted, ∀ n, lookupA g a = some n →
    ∀ b ∈ n.dependsOn, idxOf sorted b < idxOf sorted a

/-! Concrete scenarios used by witnesses, counterexamples and the C8
chain experiment. -/

/-- A `String` identifier field. -/
def fScalarId : Field :=
  ⟨"id", "scalar", "String", true, false, false, true, false, [], []⟩

/-- A required `String` foreign-key scalar named `nm`. -/
def fFKScalar (nm : String) : Field :=
  ⟨nm, "scalar", "String", false, false, false, true, false, [], []⟩

/-- A non-list relation field named `nm` targeting `ty`, backed by the
required foreign key `fk` and referencing the target's `id`. -/
def fRel (nm ty : String) (req : Bool) (fk : String) : Field :=
  ⟨nm, "object", ty, false, false, false, req, false, [fk], ["id"]⟩

/-- Model `A`, with a required (metadata-level) relation to `B`. -/
def demoA : Model := ⟨"A", [fScalarId, fFKScalar "bId", fRel "b" "B" true "bId"]⟩

/-- Model `B`, no relations. -/
def demoB : Model := ⟨"B", [fScalarId]⟩

/-- A model with a required, non-list self-relation field. -/
def mSelf : Model := ⟨"S", [fScalarId, fFKScalar "sId", fRel "s" "S" true "sId"]⟩

/-- A fixed generation environment for witnesses (no claim depends on the
random token or the clock). -/
def env0 : GenEnv := ⟨fun _ => "tok", 0⟩

/-- A collaborator that accepts every create call. -/
def okOracle : Collab :=
  ⟨fun _ name _ => some [("id", .str ("rec_" ++ name))], fun _ _ _ _ => none⟩

/-- A collaborator that rejects every call. -/
def failOracle : Collab := ⟨fun _ _ _ => none, fun _ _ _ _ => none⟩

/-- The root of a dependency chain. -/
def chainBase : Model := ⟨"M1", [fScalarId]⟩

/-- One link of a dependency chain: `nm` carries a required foreign key
to `parent`.  The relation is optional at the relation-field level (so
the graph builder adds no edge and the topological order cannot pre-solve
the chain) while the backing foreign-key scalar is required (so creation
needs the connection). -/
def chainLink (nm parent : String) : Model :=
  ⟨nm, [fScalarId, fFKScalar "parentId", fRel "parent" parent false "parentId"]⟩

/-- A depth-5 chain, listed deepest-first. -/
def chain5 : List Model :=
  [chainLink "M5" "M4", chainLink "M4" "M3", chainLink "M3" "M2",
   chainLink "M2" "M1", chainBase]

/-- A depth-6 chain, listed deepest-first. -/
def chain6 : List Model := chainLink "M6" "M5" :: chain5

/-- The collaborator of the C8 experiment: creation succeeds exactly when
every required connection is present, i.e. the chain's `parent` field
carries a `connect` instruction (the root `M1` has no required
connection). -/
def chainOracle : Collab :=
  ⟨fun _ name data =>
    if name = "M1" then some [("id", .str ("rec_" ++ name))]
    else
      match lookupA data "parent" with
      | some (.connect _) => some [("id", .str ("rec_" ++ name))]
      | _ => none,
   fun _ _ _ _ => none⟩

/-- The run state reached for `B` by `okOracle` on `[demoB]`; used by the
C10 witness. -/
def mdB1 : ModelData := ⟨demoB, [[("id", .str "rec_B")]], true⟩

/-- Model `X` of a cyclic pair: `X` requires `Y`. -/
def mX : Model := ⟨"X", [fScalarId, fFKScalar "yId", fRel "y" "Y" true "yId"]⟩

/-- Model `Y` of a cyclic pair: `Y` requires `X`. -/
def mY : Model := ⟨"Y", [fScalarId, fFKScalar "xId", fRel "x" "X" true "xId"]⟩

/-- A created record for `B`. -/
def demoRecB : Record := [("id", .str "b1")]

/-- A mid-run state: `B` has one created record, `A` none. -/
def demoMDM : MDMap :=
  [("A", ⟨demoA, [], false⟩), ("B", ⟨demoB, [demoRecB], true⟩)]

/-- A run state holding the self-relation model `S` with no records. -/
def selfMDM : MDMap := [("S", ⟨mSelf, [], false⟩)]

/-! ### Association-list lemmas -/

theorem lookupA_isSome_iff {β : Type} (l : List (String × β)) (k : String) :
    (lookupA l k).isSome ↔ k ∈ l.map Prod.fst := by
  induction l with
  | nil => simp [lookupA]
  | cons p t ih =>
      obtain ⟨k', v⟩ := p
      by_cases h : k' = k
      · subst h; simp [lookupA]
      · simp [lookupA, h, ih, Ne.symm h]

theorem mem_keys_exists_lookupA {β : Type} {l : List (String × β)} {k : String}
    (h : k ∈ l.map Prod.fst) : ∃ v, lookupA l k = some v := by
  have := (lookupA_isSome_iff l k).mpr h
  exact Option.isSome_iff_exists.mp this

theorem lookupA_mem_keys {β : Type} {l : List (String × β)} {k : String} {v : β}
    (h : lookupA l k = some v) : k ∈ l.map Prod.fst := by
  rw [← lookupA_isSome_iff, h]; rfl

theorem adjustA_keys {β : Type} (l : List (String × β)) (k : String) (f : β → β) :
    (adjustA l k f).map Prod.fst = l.map Prod.fst := by
  induction l with
  | nil => rfl
  | cons p t ih =>
      obtain ⟨k', v⟩ := p
      by_cases h : k' = k <;> simp [adjustA, h, ih]

theorem lookupA_adjustA_self {β : Type} (l : List (String × β)) (k : String)
    (f : β → β) : lookupA (adjustA l k f) k = (lookupA l k).map f := by
  induction l with
  | nil => rfl
  | cons p t ih =>
      obtain ⟨k', v⟩ := p
      by_cases h : k' = k <;> simp [adjustA, lookupA, h, ih]

theorem lookupA_adjustA_ne {β : Type} (l : List (String × β)) {k k' : String}
    (f : β → β) (h : k' ≠ k) :
    lookupA (adjustA l k f) k' = lookupA l k' := by
  induction l with
  | nil => rfl
  | cons p t ih =>
      obtain ⟨k'', v⟩ := p
      by_cases h2 : k'' = k
      · subst h2
        simp [adjustA, lookupA, Ne.symm h]
      · by_cases h3 : k'' = k' <;> simp [adjustA, lookupA, h, h2, h3, ih]

theorem setValA_keys {β : Type} (l : List (String × β)) (k : String) (v : β) :
    (setValA l k v).map Prod.fst = l.map Prod.fst := adjustA_keys l k _

theorem lookupA_setValA_self {β : Type} {l : List (String × β)} {k : String}
    {v w : β} (h : lookupA l k = some v) :
    lookupA (setValA l k w) k = some w := by
  unfold setValA; rw [lookupA_adjustA_self, h]; rfl

theorem lookupA_setValA_ne {β : Type} (l : List (String × β)) {k k' : String}
    (v : β) (h : k' ≠ k) : lookupA (setValA l k v) k' = lookupA l k' :=
  lookupA_adjustA_ne l _ h

theorem lookupA_objUpsert_self {β : Type} (l : List (String × β)) (k : String)
    (v : β) : lookupA (objUpsert l k v) k = some v := by
  induction l with
  | nil => simp [objUpsert, lookupA]
  | cons p t ih =>
      obtain ⟨k', v'⟩ := p
      by_cases h : k' = k <;> simp [objUpsert, lookupA, h, ih]

theorem lookupA_objUpsert_ne {β : Type} (l : List (String × β)) {k k' : String}
    (v : β) (h : k' ≠ k) :
    lookupA (objUpsert l k v) k' = lookupA l k' := by
  induction l with
  | nil => simp [objUpsert, lookupA, Ne.symm h]
  | cons p t ih =>
      obtain ⟨k'', v'⟩ := p
      by_cases h2 : k'' = k
      · subst h2
        simp [objUpsert, lookupA, Ne.symm h]
      · by_cases h3 : k'' = k' <;> simp [objUpsert, lookupA, h, h2, h3, ih]

theorem objUpsert_of_not_mem {β : Type} {l : List (String × β)} {k : String}
    (v : β) (h : k ∉ l.map Prod.fst) : objUpsert l k v = l ++ [(k, v)] := by
  induction l with
  | nil => rfl
  | cons p t ih =>
      obtain ⟨k', v'⟩ := p
      simp only [List.map_cons, List.mem_cons] at h
      push_neg at h
      simp [objUpsert, Ne.symm h.1, ih h.2]

/-! ### `setAdd` and `idxOf` lemmas -/

theorem setAdd_mem {s : List String} {x y : String} :
    y ∈ setAdd s x ↔ y ∈ s ∨ y = x := by
  unfold setAdd
  by_cases h : x ∈ s
  · simp only [if_pos h]
    constructor
    · exact Or.inl
    · rintro (hy | rfl) <;> [exact hy; exact h]
  · simp [if_neg h]

theorem setAdd_nodup {s : List String} {x : String} (h : s.Nodup) :
    (setAdd s x).Nodup := by
  unfold setAdd
  by_cases hx : x ∈ s
  · simpa [hx]
  · simp only [if_neg hx]
    refine List.Nodup.append h (List.nodup_singleton x) ?_
    intro a ha hax
    rw [List.mem_singleton] at hax
    subst hax
    exact hx ha

theorem idxOf_lt_length {l : List String} {a : String} (h : a ∈ l) :
    idxOf l a < l.length := by
  induction l with
  | nil => cases h
  | cons b t ih =>
      by_cases hb : b = a
      · simp [idxOf, hb]
      · have ht : a ∈ t := by
          rcases List.mem_cons.mp h with h1 | h1
          · exact absurd h1.symm hb
          · exact h1
        simp only [idxOf, if_neg hb, List.length_cons]
        exact Nat.succ_lt_succ (ih ht)

theorem idxOf_append_left {l t : List String} {a : String} (h : a ∈ l) :
    idxOf (l ++ t) a = idxOf l a := by
  induction l with
  | nil => cases h
  | cons b l' ih =>
      by_cases hb : b = a
      · simp [idxOf, hb]
      · have ht : a ∈ l' := by
          rcases List.mem_cons.mp h with h1 | h1
          · exact absurd h1.symm hb
          · exact h1
        simp [idxOf, hb, ih ht]

theorem idxOf_append_self {l : List String} {a : String} (h : a ∉ l) :
    idxOf (l ++ [a]) a = l.length := by
  induction l with
  | nil => simp [idxOf]
  | cons b l' ih =>
      have hb : b ≠ a := fun hc => h (hc ▸ List.mem_cons_self b l')
      have h' : a ∉ l' := fun hc => h (List.mem_cons_of_mem b hc)
      simp [idxOf, hb, ih h']

/-! ### Filter lemmas for the in-degree book-keeping -/

theorem filter_not_mem_nil {l s : List String} (h : ∀ b ∈ l, b ∈ s) :
    l.filter (fun b => decide (b ∉ s)) = [] := by
  induction l with
  | nil => rfl
  | cons a t ih =>
      have ha := h a (List.mem_cons_self a t)
      rw [List.filter_cons, if_neg (by simp [ha])]
      exact ih (fun b hb => h b (List.mem_cons_of_mem a hb))

theorem filter_unchanged {l s : List String} {x : String} (hx : x ∉ l) :
    l.filter (fun b => decide (b ∉ s ++ [x])) =
      l.filter (fun b => decide (b ∉ s)) := by
  apply List.filter_congr
  intro b hb
  have hbx : b ≠ x := fun hc => hx (hc ▸ hb)
  simp [List.mem_append, hbx]

theorem filter_out_one {l s : List String} {x : String} (hnd : l.Nodup)
    (hx : x ∈ l) (hxs : x ∉ s) :
    (l.filter (fun b => decide (b ∉ s ++ [x]))).length + 1 =
      (l.filter (fun b => decide (b ∉ s))).length := by
  induction l with
  | nil => cases hx
  | cons a t ih =>
      have hndt : t.Nodup := (List.nodup_cons.mp hnd).2
      by_cases hax : a = x
      · subst hax
        have hat : a ∉ t := (List.nodup_cons.mp hnd).1
        rw [List.filter_cons, List.filter_cons,
          if_neg (by simp [List.mem_append]),
          if_pos (by simp [hxs]), filter_unchanged hat, List.length_cons]
      · have hxt : x ∈ t := by
          rcases List.mem_cons.mp hx with h1 | h1
          · exact absurd h1.symm hax
          · exact h1
        rw [List.filter_cons, List.filter_cons]
        by_cases has : a ∈ s
        · rw [if_neg (by simp [List.mem_append, has]),
            if_neg (by simp [has])]
          exact ih hndt hxt
        · rw [if_pos (by simp [List.mem_append, has, hax]),
            if_pos (by simp [has])]
          simp only [List.length_cons]
          have := ih hndt hxt
          omega

theorem filter_eq_single {l s : List String} {x : String} (hnd : l.Nodup)
    (hx : x ∈ l) (hxs : x ∉ s) (hall : ∀ c ∈ l, c ∉ s → c = x) :
    l.filter (fun b => decide (b ∉ s)) = [x] := by
  induction l with
  | nil => cases hx
  | cons a t ih =>
      have hndt : t.Nodup := (List.nodup_cons.mp hnd).2
      by_cases hax : a = x
      · subst hax
        have hat : a ∉ t := (List.nodup_cons.mp hnd).1
        rw [List.filter_cons, if_pos (by simp [hxs])]
        have htail : t.filter (fun b => decide (b ∉ s)) = [] := by
          apply filter_not_mem_nil
          intro c hc
          by_contra hcs
          exact hat ((hall c (List.mem_cons_of_mem a hc) hcs) ▸ hc)
        rw [htail]
      · have hxt : x ∈ t := by
          rcases List.mem_cons.mp hx with h1 | h1
          · exact absurd h1.symm hax
          · exact h1
        have has : a ∈ s := by
          by_contra hcs
          exact hax (hall a (List.mem_cons_self a t) hcs)
        rw [List.filter_cons, if_neg (by simp [has])]
        exact ih hndt hxt (fun c hc => hall c (List.mem_cons_of_mem a hc))

/-! ### `processRefs` specification and measure -/

theorem degMeasure_setValA {l : List (String × Int)} {k : String} {v : Int}
    (w : Int) (h : lookupA l k = some v) :
    degMeasure (setValA l k w) + v.toNat = degMeasure l + w.toNat := by
  induction l with
  | nil => cases h
  | cons p t ih =>
      obtain ⟨k', v'⟩ := p
      by_cases hk : k' = k
      · subst hk
        have hv : v' = v := by
          have := h
          simp [lookupA] at this
          exact this
        subst hv
        simp [setValA, adjustA, degMeasure]
        omega
      · have h' : lookupA t k = some v := by
          simpa [lookupA, hk] using h
        have := ih h'
        simp only [setValA, adjustA, if_neg hk, degMeasure, List.map_cons,
          List.sum_cons] at *
        omega

theorem processRefs_measure (refs : List String) (inDeg : List (String × Int)) :
    degMeasure (processRefs inDeg refs).1 + (processRefs inDeg refs).2.length ≤
      degMeasure inDeg := by
  induction refs generalizing inDeg with
  | nil => simp [processRefs]
  | cons r rs ih =>
      cases hv : lookupA inDeg r with
      | none => simpa [processRefs, hv] using ih inDeg
      | some v =>
          have hEq := degMeasure_setValA (v - 1) hv
          have hIH := ih (setValA inDeg r (v - 1))
          simp only [processRefs, hv, List.length_append]
          by_cases h1 : v - 1 = 0
          · rw [if_pos h1]
            simp only [List.length_singleton]
            omega
          · rw [if_neg h1]
            simp only [List.length_nil]
            omega

theorem processRefs_spec (refs : List String) (inDeg : List (String × Int))
    (hnd : refs.Nodup) (hkeys : ∀ r ∈ refs, r ∈ inDeg.map Prod.fst) :
    (processRefs inDeg refs).1.map Prod.fst = inDeg.map Prod.fst ∧
    (∀ a v, lookupA inDeg a = some v →
      lookupA (processRefs inDeg refs).1 a =
        some (if a ∈ refs then v - 1 else v)) ∧
    (processRefs inDeg refs).2 =
      refs.filter (fun r => decide (lookupA inDeg r = some 1)) := by
  induction refs generalizing inDeg with
  | nil =>
      refine ⟨rfl, ?_, rfl⟩
      intro a v h
      simpa [processRefs] using h
  | cons r rs ih =>
      obtain ⟨v, hv⟩ := mem_keys_exists_lookupA (hkeys r (List.mem_cons_self r rs))
      have hrs : r ∉ rs := (List.nodup_cons.mp hnd).1
      have hnd' : rs.Nodup := (List.nodup_cons.mp hnd).2
      have hkeys' : ∀ x ∈ rs, x ∈ (setValA inDeg r (v - 1)).map Prod.fst := by
        intro x hx
        rw [setValA_keys]
        exact hkeys x (List.mem_cons_of_mem r hx)
      obtain ⟨ihKeys, ihLook, ihPush⟩ := ih (setValA inDeg r (v - 1)) hnd' hkeys'
      have hpr : processRefs inDeg (r :: rs) =
          ((processRefs (setValA inDeg r (v - 1)) rs).1,
            (if v - 1 = 0 then [r] else []) ++
              (processRefs (setValA inDeg r (v - 1)) rs).2) := by
        simp [processRefs, hv]
      rw [hpr]
      refine ⟨by rw [ihKeys, setValA_keys], ?_, ?_⟩
      · intro a w hw
        by_cases har : a = r
        · subst har
          have hveq : w = v := by
            rw [hv] at hw
            exact (Option.some_inj.mp hw).symm
          subst hveq
          have hlk : lookupA (setValA inDeg a (w - 1)) a = some (w - 1) :=
            lookupA_setValA_self hv
          have h2 := ihLook a (w - 1) hlk
          rw [h2, if_neg (fun hc => hrs hc)]
          simp [List.mem_cons]
        · have hlk : lookupA (setValA inDeg r (v - 1)) a = some w := by
            rw [lookupA_setValA_ne _ _ har]
            exact hw
          have h2 := ihLook a w hlk
          rw [h2]
          simp [List.mem_cons, har]
      · rw [ihPush]
        have hcong : rs.filter
              (fun x => decide (lookupA (setValA inDeg r (v - 1)) x = some 1)) =
            rs.filter (fun x => decide (lookupA inDeg x = some 1)) := by
          apply List.filter_congr
          intro x hx
          have hxr : x ≠ r := fun hc => hrs (hc ▸ hx)
          rw [lookupA_setValA_ne _ _ hxr]
        rw [hcong, List.filter_cons]
        by_cases h1 : v - 1 = 0
        · have hv1 : v = 1 := by omega
          rw [if_pos h1, if_pos (by simp [hv, hv1])]
          rfl
        · have hv1 : v ≠ 1 := by omega
          rw [if_neg h1, if_neg (by simp [hv, hv1])]
          rfl

/-! ### The Kahn loop invariant -/

theorem KInv_step {g : Graph} (hwf : WFGraph g) {inDeg : List (String × Int)}
    {current : String} {rest sorted : List String}
    (h : KInv g inDeg (current :: rest) sorted) :
    KInv g
      (processRefs inDeg ((lookupA g current).getD ⟨current, [], []⟩).referencedBy).1
      (rest ++
        (processRefs inDeg ((lookupA g current).getD ⟨current, [], []⟩).referencedBy).2)
      (sorted ++ [current]) := by
  obtain ⟨ncur, hcur⟩ :=
    mem_keys_exists_lookupA (h.queueKeys current (List.mem_cons_self _ _))
  rw [hcur]
  simp only [Option.getD_some]
  have hrefnd : ncur.referencedBy.Nodup := hwf.refNodup current ncur hcur
  have hrefkeys : ∀ r ∈ ncur.referencedBy, r ∈ inDeg.map Prod.fst := by
    intro r hr
    rw [h.degKeys]
    exact hwf.refKeys current ncur hcur r hr
  obtain ⟨sKeys, sLook, sPush⟩ := processRefs_spec ncur.referencedBy inDeg hrefnd hrefkeys
  have hcns : current ∉ sorted := h.disj current (List.mem_cons_self _ _)
  have hcnr : current ∉ rest := (List.nodup_cons.mp h.queueNodup).1
  have hmemref : ∀ a na, lookupA g a = some na →
      (a ∈ ncur.referencedBy ↔ current ∈ na.dependsOn) := by
    intro a na ha
    exact (hwf.inverse a na current ncur ha hcur).symm
  have hPmem : ∀ r, r ∈ (processRefs inDeg ncur.referencedBy).2 →
      lookupA inDeg r = some 1 ∧ r ∈ ncur.referencedBy := by
    intro r hr
    rw [sPush] at hr
    have h2 := List.mem_filter.mp hr
    exact ⟨by simpa using h2.2, h2.1⟩
  have degVal' : ∀ a n, lookupA g a = some n →
      lookupA (processRefs inDeg ncur.referencedBy).1 a =
        some ((n.dependsOn.filter
          (fun b => decide (b ∉ sorted ++ [current]))).length : Int) := by
    intro a na ha
    have hold := h.degVal a na ha
    have hnew := sLook a _ hold
    by_cases har : a ∈ ncur.referencedBy
    · rw [if_pos har] at hnew
      have hcd : current ∈ na.dependsOn := (hmemref a na ha).mp har
      have hlen := filter_out_one (hwf.depNodup a na ha) hcd hcns
      rw [hnew]
      congr 1
      omega
    · rw [if_neg har] at hnew
      have hcd : current ∉ na.dependsOn := fun hc => har ((hmemref a na ha).mpr hc)
      rw [filter_unchanged hcd]
      exact hnew
  have hPfresh : ∀ r ∈ (processRefs inDeg ncur.referencedBy).2,
      r ∉ sorted ∧ r ∉ current :: rest := by
    intro r hr
    obtain ⟨hr1, hrref⟩ := hPmem r hr
    obtain ⟨nr, hnr⟩ :=
      mem_keys_exists_lookupA (hwf.refKeys current ncur hcur r hrref)
    have holdr := h.degVal r nr hnr
    have hlen1 : (nr.dependsOn.filter (fun b => decide (b ∉ sorted))).length = 1 := by
      rw [holdr] at hr1
      have := Option.some_inj.mp hr1
      omega
    have hnotall : ¬ (∀ b ∈ nr.dependsOn, b ∈ sorted) := by
      intro hall
      rw [filter_not_mem_nil hall] at hlen1
      simp at hlen1
    exact ⟨fun hrs => hnotall ((h.completeIff r nr hnr).mpr (Or.inl hrs)),
           fun hrq => hnotall ((h.completeIff r nr hnr).mpr (Or.inr hrq))⟩
  refine ⟨?_, degVal', ?_, ?_, ?_, ?_, ?_, ?_, ?_⟩
  · rw [sKeys, h.degKeys]
  · intro a ha
    rcases List.mem_append.mp ha with h1 | h1
    · exact h.sortedKeys a h1
    · rw [List.mem_singleton] at h1
      subst h1
      exact lookupA_mem_keys hcur
  · intro a ha
    rcases List.mem_append.mp ha with h1 | h1
    · exact h.queueKeys a (List.mem_cons_of_mem _ h1)
    · exact hwf.refKeys current ncur hcur a (hPmem a h1).2
  · rw [List.nodup_append]
    refine ⟨h.sortedNodup, List.nodup_singleton _, ?_⟩
    intro a ha hb
    rw [List.mem_singleton] at hb
    subst hb
    exact hcns ha
  · rw [List.nodup_append]
    refine ⟨h.queueNodup.of_cons, ?_, ?_⟩
    · rw [sPush]
      exact List.Nodup.filter _ hrefnd
    · intro a ha haP
      exact (hPfresh a haP).2 (List.mem_cons_of_mem _ ha)
  · intro a ha
    rcases List.mem_append.mp ha with h1 | h1
    · intro hmem
      rcases List.mem_append.mp hmem with h2 | h2
      · exact h.disj a (List.mem_cons_of_mem _ h1) h2
      · rw [List.mem_singleton] at h2
        subst h2
        exact hcnr h1
    · intro hmem
      rcases List.mem_append.mp hmem with h2 | h2
      · exact (hPfresh a h1).1 h2
      · rw [List.mem_singleton] at h2
        subst h2
        exact (hPfresh a h1).2 (List.mem_cons_self _ _)
  · intro a na ha
    constructor
    · intro hall
      by_cases hsub : ∀ b ∈ na.dependsOn, b ∈ sorted
      · rcases (h.completeIff a na ha).mp hsub with hs | hq
        · exact Or.inl (List.mem_append_left _ hs)
        · rcases List.mem_cons.mp hq with rfl | hr
          · exact Or.inl (List.mem_append_right _ (List.mem_singleton_self _))
          · exact Or.inr (List.mem_append_left _ hr)
      · push_neg at hsub
        obtain ⟨b, hbdeps, hbns⟩ := hsub
        have hbc : b = current := by
          rcases List.mem_append.mp (hall b hbdeps) with h2 | h2
          · exact absurd h2 hbns
          · exact List.mem_singleton.mp h2
        subst hbc
        have haref : a ∈ ncur.referencedBy := (hmemref a na ha).mpr hbdeps
        have hsingle : na.dependsOn.filter (fun c => decide (c ∉ sorted)) = [b] := by
          apply filter_eq_single (hwf.depNodup a na ha) hbdeps hbns
          intro c hc hcs
          rcases List.mem_append.mp (hall c hc) with h2 | h2
          · exact absurd h2 hcs
          · exact List.mem_singleton.mp h2
        have h1 : lookupA inDeg a = some 1 := by
          rw [h.degVal a na ha, hsingle]
          rfl
        have haP : a ∈ (processRefs inDeg ncur.referencedBy).2 := by
          rw [sPush]
          exact List.mem_filter.mpr ⟨haref, by simp [h1]⟩
        exact Or.inr (List.mem_append_right _ haP)
    · intro hmem
      have hsub : ∀ b ∈ na.dependsOn, b ∈ sorted → b ∈ sorted ++ [current] :=
        fun b _ hb => List.mem_append_left _ hb
      rcases hmem with hs | hq
      · rcases List.mem_append.mp hs with h1 | h1
        · intro b hb
          exact hsub b hb ((h.completeIff a na ha).mpr (Or.inl h1) b hb)
        · rw [List.mem_singleton] at h1
          subst h1
          intro b hb
          exact hsub b hb
            ((h.completeIff a na ha).mpr (Or.inr (List.mem_cons_self _ _)) b hb)
      · rcases List.mem_append.mp hq with h1 | h1
        · intro b hb
          exact hsub b hb
            ((h.completeIff a na ha).mpr (Or.inr (List.mem_cons_of_mem _ h1)) b hb)
        · obtain ⟨h1v, haref⟩ := hPmem a h1
          have hold := h.degVal a na ha
          have hnew := sLook a _ hold
          rw [if_pos haref] at hnew
          have holdlen :
              ((na.dependsOn.filter (fun b => decide (b ∉ sorted))).length : Int) = 1 := by
            rw [hold] at h1v
            exact Option.some_inj.mp h1v
          have hnewval := degVal' a na ha
          rw [hnew] at hnewval
          have hzero :
              (na.dependsOn.filter
                (fun b => decide (b ∉ sorted ++ [current]))).length = 0 := by
            have := Option.some_inj.mp hnewval
            omega
          have hnil := List.length_eq_zero.mp hzero
          intro b hb
          by_contra hbn
          have : b ∈ na.dependsOn.filter
              (fun b => decide (b ∉ sorted ++ [current])) :=
            List.mem_filter.mpr ⟨hb, by simpa using hbn⟩
          rw [hnil] at this
          cases this
  · intro a hamem na hna b hb
    rcases List.mem_append.mp hamem with has | hac
    · have hdep : ∀ c ∈ na.dependsOn, c ∈ sorted :=
        (h.completeIff a na hna).mpr (Or.inl has)
      have hbs : b ∈ sorted := hdep b hb
      rw [idxOf_append_left has, idxOf_append_left hbs]
      exact h.ordered a has na hna b hb
    · rw [List.mem_singleton] at hac
      subst hac
      have hdep : ∀ c ∈ na.dependsOn, c ∈ sorted :=
        (h.completeIff a na hna).mpr (Or.inr (List.mem_cons_self _ _))
      have hbs : b ∈ sorted := hdep b hb
      rw [idxOf_append_self hcns, idxOf_append_left hbs]
      exact idxOf_lt_length hbs

theorem kahnLoopF_inv {g : Graph} (hwf : WFGraph g) :
    ∀ (fuel : Nat) (inDeg : List (String × Int)) (queue sorted : List String),
      degMeasure inDeg + queue.length ≤ fuel →
      KInv g inDeg queue sorted →
      KInv g (kahnLoopF g fuel inDeg queue sorted).1 []
        (kahnLoopF g fuel inDeg queue sorted).2 := by
  intro fuel
  induction fuel with
  | zero =>
      intro inDeg queue sorted hfuel hinv
      have hq : queue = [] := List.length_eq_zero.mp (by omega)
      subst hq
      exact hinv
  | succ fuel ih =>
      intro inDeg queue sorted hfuel hinv
      cases queue with
      | nil => exact hinv
      | cons current rest =>
          have hstep := KInv_step hwf hinv
          have hm := processRefs_measure
            ((lookupA g current).getD ⟨current, [], []⟩).referencedBy inDeg
          have hfuel' :
              degMeasure (processRefs inDeg
                ((lookupA g current).getD ⟨current, [], []⟩).referencedBy).1 +
              (rest ++ (processRefs inDeg
                ((lookupA g current).getD ⟨current, [], []⟩).referencedBy).2).length ≤
                fuel := by
            simp only [List.length_append]
            simp only [List.length_cons] at hfuel
            omega
          have hres := ih _ _ _ hfuel' hstep
          simpa [kahnLoopF] using hres

theorem lookupA_map_snd {β γ : Type} (f : β → γ) (l : List (String × β))
    (k : String) :
    lookupA (l.map (fun p => (p.1, f p.2))) k = (lookupA l k).map f := by
  induction l with
  | nil => rfl
  | cons p t ih =>
      obtain ⟨k', v⟩ := p
      by_cases h : k' = k <;> simp [lookupA, h, ih]

theorem initInDeg_keys (g : Graph) :
    (initInDeg g).map Prod.fst = g.map Prod.fst := by
  simp [initInDeg]

theorem lookupA_initInDeg (g : Graph) (k : String) :
    lookupA (initInDeg g) k =
      (lookupA g k).map (fun n => (n.dependsOn.length : Int)) := by
  unfold initInDeg
  exact lookupA_map_snd (fun n => (n.dependsOn.length : Int)) g k

theorem KInv_init (g : Graph) (hwf : WFGraph g) :
    KInv g (initInDeg g) (initQueue g) [] := by
  have hkeys := initInDeg_keys g
  refine ⟨hkeys, ?_, ?_, ?_, List.nodup_nil, ?_, ?_, ?_, ?_⟩
  · intro a n ha
    rw [lookupA_initInDeg, ha]
    simp
  · intro a ha
    cases ha
  · intro a ha
    rw [← hkeys]
    exact (List.mem_filter.mp ha).1
  · exact List.Nodup.filter _ (by rw [hkeys]; exact hwf.keysNodup)
  · intro a ha
    exact List.not_mem_nil a
  · intro a n ha
    constructor
    · intro hall
      have hdeps : n.dependsOn = [] :=
        List.eq_nil_iff_forall_not_mem.mpr
          (fun b hb => (List.not_mem_nil b) (hall b hb))
      refine Or.inr (List.mem_filter.mpr ⟨?_, ?_⟩)
      · rw [hkeys]
        exact lookupA_mem_keys ha
      · simp [lookupA_initInDeg, ha, hdeps]
    · intro hmem b hb
      rcases hmem with h1 | h1
      · cases h1
      · have h2 := (List.mem_filter.mp h1).2
        have h3 : lookupA (initInDeg g) a = some 0 := of_decide_eq_true h2
        rw [lookupA_initInDeg, ha] at h3
        simp only [Option.map_some', Option.some_inj] at h3
        have h4 : n.dependsOn.length = 0 := by exact_mod_cast h3
        rw [List.length_eq_zero.mp h4] at hb
        cases hb
  · intro a ha
    cases ha

theorem kahnRun_inv (g : Graph) (hwf : WFGraph g) :
    KInv g (kahnRun g).1 [] (kahnRun g).2 :=
  kahnLoopF_inv hwf _ _ _ _ le_rfl (KInv_init g hwf)

theorem kahnRemaining (g : Graph) (hwf : WFGraph g) :
    ((kahnRun g).1.map Prod.fst).filter
        (fun m => decide (0 < (lookupA (kahnRun g).1 m).getD 0)) =
      (g.map Prod.fst).filter (fun m => decide (m ∉ (kahnRun g).2)) := by
  have inv := kahnRun_inv g hwf
  rw [inv.degKeys]
  apply List.filter_congr
  intro m hm
  obtain ⟨n, hn⟩ := mem_keys_exists_lookupA hm
  have hval := inv.degVal m n hn
  rw [hval]
  simp only [Option.getD_some]
  by_cases hms : m ∈ (kahnRun g).2
  · have hsub := (inv.completeIff m n hn).mpr (Or.inl hms)
    rw [filter_not_mem_nil hsub]
    refine decide_eq_decide.mpr ?_
    simp [hms]
  · have hnall : ¬ ∀ b ∈ n.dependsOn, b ∈ (kahnRun g).2 := by
      intro hall
      rcases (inv.completeIff m n hn).mp hall with h1 | h1
      · exact hms h1
      · cases h1
    push_neg at hnall
    obtain ⟨b, hb, hbs⟩ := hnall
    have hmem : b ∈ n.dependsOn.filter
        (fun c => decide (c ∉ (kahnRun g).2)) :=
      List.mem_filter.mpr ⟨hb, by simpa using hbs⟩
    have hpos : 0 < (n.dependsOn.filter
        (fun c => decide (c ∉ (kahnRun g).2))).length :=
      List.length_pos.mpr (fun hc => by rw [hc] at hmem; cases hmem)
    refine decide_eq_decide.mpr ?_
    refine iff_of_true ?_ hms
    exact_mod_cast hpos

theorem sorted_perm_filter (g : Graph) (hwf : WFGraph g) :
    (kahnRun g).2.Perm
      ((g.map Prod.fst).filter (fun m => decide (m ∈ (kahnRun g).2))) := by
  have inv := kahnRun_inv g hwf
  apply List.perm_of_nodup_nodup_toFinset_eq inv.sortedNodup
    (List.Nodup.filter _ hwf.keysNodup)
  ext x
  simp only [List.mem_toFinset, List.mem_filter, decide_eq_true_eq]
  exact ⟨fun hx => ⟨inv.sortedKeys x hx, hx⟩, fun hx => hx.2⟩

theorem topologicalSort_perm_keys (g : Graph) (hwf : WFGraph g) :
    (topologicalSort g).Perm (g.map Prod.fst) := by
  have hperm1 := sorted_perm_filter g hwf
  have hsplit := List.filter_append_perm
    (fun m => decide (m ∈ (kahnRun g).2)) (g.map Prod.fst)
  have hnotform :
      (g.map Prod.fst).filter (fun m => !decide (m ∈ (kahnRun g).2)) =
        (g.map Prod.fst).filter (fun m => decide (m ∉ (kahnRun g).2)) := by
    apply List.filter_congr
    intro x hx
    simp
  rw [hnotform] at hsplit
  unfold topologicalSort
  by_cases hlt : (kahnRun g).2.length < g.length
  · rw [if_pos hlt, kahnRemaining g hwf]
    exact (hperm1.append_right _).trans hsplit
  · rw [if_neg hlt]
    have hlen1 : (kahnRun g).2.length =
        ((g.map Prod.fst).filter
          (fun m => decide (m ∈ (kahnRun g).2))).length :=
      hperm1.length_eq
    have hlen2 :
        ((g.map Prod.fst).filter
            (fun m => decide (m ∈ (kahnRun g).2))).length +
          ((g.map Prod.fst).filter
            (fun m => decide (m ∉ (kahnRun g).2))).length =
          (g.map Prod.fst).length := by
      rw [← List.length_append]
      exact hsplit.length_eq
    have hklen : (g.map Prod.fst).length = g.length := List.length_map _ _
    have hzero :
        ((g.map Prod.fst).filter
          (fun m => decide (m ∉ (kahnRun g).2))).length = 0 := by
      omega
    rw [List.length_eq_zero.mp hzero, List.append_nil] at hsplit
    exact hperm1.trans hsplit

theorem sorted_covers_of_acyclic (g : Graph) (hwf : WFGraph g)
    (hacyc : AcyclicGraph g) :
    ∀ a ∈ g.map Prod.fst, a ∈ (kahnRun g).2 := by
  have inv := kahnRun_inv g hwf
  by_contra hc
  push_neg at hc
  obtain ⟨a0, ha0k, ha0s⟩ := hc
  obtain ⟨m, hm, hmin⟩ := hacyc.has_min
    {x : String | x ∈ g.map Prod.fst ∧ x ∉ (kahnRun g).2} ⟨a0, ha0k, ha0s⟩
  obtain ⟨nm, hnm⟩ := mem_keys_exists_lookupA hm.1
  have hnall : ¬ ∀ b ∈ nm.dependsOn, b ∈ (kahnRun g).2 := by
    intro hall
    rcases (inv.completeIff m nm hnm).mp hall with h1 | h1
    · exact hm.2 h1
    · cases h1
  push_neg at hnall
  obtain ⟨b, hb, hbs⟩ := hnall
  have hbk : b ∈ g.map Prod.fst := hwf.depKeys m nm hnm b hb
  exact hmin b ⟨hbk, hbs⟩ ⟨nm, hnm, hb⟩

theorem topologicalSort_eq_sorted_of_acyclic (g : Graph) (hwf : WFGraph g)
    (hacyc : AcyclicGraph g) :
    topologicalSort g = (kahnRun g).2 := by
  have inv := kahnRun_inv g hwf
  have hcover := sorted_covers_of_acyclic g hwf hacyc
  have hperm : (kahnRun g).2.Perm (g.map Prod.fst) :=
    List.perm_of_nodup_nodup_toFinset_eq inv.sortedNodup hwf.keysNodup
      (by
        ext x
        simp only [List.mem_toFinset]
        exact ⟨fun hx => inv.sortedKeys x hx, fun hx => hcover x hx⟩)
  have hlen : (kahnRun g).2.length = g.length := by
    rw [hperm.length_eq]
    exact List.length_map _ _
  unfold topologicalSort
  rw [if_neg (by omega)]

theorem topo_prec (g : Graph) (hwf : WFGraph g) (hacyc : AcyclicGraph g)
    (a b : String) (na : GNode) (ha : lookupA g a = some na)
    (hb : b ∈ na.dependsOn) :
    idxOf (topologicalSort g) b < idxOf (topologicalSort g) a ∧
      b ∈ topologicalSort g ∧ a ∈ topologicalSort g := by
  have inv := kahnRun_inv g hwf
  rw [topologicalSort_eq_sorted_of_acyclic g hwf hacyc]
  have haS : a ∈ (kahnRun g).2 :=
    sorted_covers_of_acyclic g hwf hacyc a (lookupA_mem_keys ha)
  have hbS : b ∈ (kahnRun g).2 :=
    (inv.completeIff a na ha).mpr (Or.inl haS) b hb
  exact ⟨inv.ordered a haS na ha b hb, hbS, haS⟩

/-! ### Well-formedness of `buildDependencyGraph` outputs -/

theorem addEdge_keys (g : Graph) (a b : String) :
    (addEdge g a b).map Prod.fst = g.map Prod.fst := by
  unfold addEdge
  rw [adjustA_keys, adjustA_keys]

theorem addEdge_lookup (g : Graph) (a b x : String) (nx : GNode)
    (h : lookupA g x = some nx) :
    lookupA (addEdge g a b) x = some
      { nx with
        dependsOn := if x = a then setAdd nx.dependsOn b else nx.dependsOn,
        referencedBy := if x = b then setAdd nx.referencedBy a else nx.referencedBy } := by
  unfold addEdge
  by_cases hxb : x = b
  · subst hxb
    rw [lookupA_adjustA_self]
    by_cases hxa : x = a
    · subst hxa
      rw [lookupA_adjustA_self, h]
      simp
    · rw [lookupA_adjustA_ne _ _ hxa, h]
      simp [hxa]
  · rw [lookupA_adjustA_ne _ _ hxb]
    by_cases hxa : x = a
    · subst hxa
      rw [lookupA_adjustA_self, h]
      simp [hxb]
    · rw [lookupA_adjustA_ne _ _ hxa, h]
      simp [hxa, hxb]

theorem addEdge_lookup_none (g : Graph) (a b x : String)
    (h : lookupA g x = none) : lookupA (addEdge g a b) x = none := by
  cases hr : lookupA (addEdge g a b) x with
  | none => rfl
  | some n =>
      have h1 : x ∈ (addEdge g a b).map Prod.fst := lookupA_mem_keys hr
      rw [addEdge_keys] at h1
      obtain ⟨v, hv⟩ := mem_keys_exists_lookupA h1
      rw [h] at hv
      cases hv

theorem addEdge_lookup_cases (g : Graph) (a b x : String) (nx' : GNode)
    (h : lookupA (addEdge g a b) x = some nx') :
    ∃ nx, lookupA g x = some nx ∧
      nx' = { nx with
        dependsOn := if x = a then setAdd nx.dependsOn b else nx.dependsOn,
        referencedBy := if x = b then setAdd nx.referencedBy a else nx.referencedBy } := by
  cases hg : lookupA g x with
  | none => rw [addEdge_lookup_none _ _ _ _ hg] at h; cases h
  | some nx =>
      rw [addEdge_lookup _ _ _ _ _ hg] at h
      exact ⟨nx, rfl, (Option.some_inj.mp h).symm⟩

theorem addEdge_wf {g : Graph} (hwf : WFGraph g) {a b : String}
    (ha : a ∈ g.map Prod.fst) (hb : b ∈ g.map Prod.fst) :
    WFGraph (addEdge g a b) := by
  constructor
  · rw [addEdge_keys]
    exact hwf.keysNodup
  · intro x n h
    obtain ⟨nx, hnx, rfl⟩ := addEdge_lookup_cases g a b x n h
    dsimp only
    by_cases hxa : x = a
    · rw [if_pos hxa]
      exact setAdd_nodup (hwf.depNodup x nx hnx)
    · rw [if_neg hxa]
      exact hwf.depNodup x nx hnx
  · intro x n h
    obtain ⟨nx, hnx, rfl⟩ := addEdge_lookup_cases g a b x n h
    dsimp only
    by_cases hxb : x = b
    · rw [if_pos hxb]
      exact setAdd_nodup (hwf.refNodup x nx hnx)
    · rw [if_neg hxb]
      exact hwf.refNodup x nx hnx
  · intro x n h c hc
    obtain ⟨nx, hnx, rfl⟩ := addEdge_lookup_cases g a b x n h
    rw [addEdge_keys]
    dsimp only at hc
    by_cases hxa : x = a
    · rw [if_pos hxa] at hc
      rcases setAdd_mem.mp hc with h1 | h1
      · exact hwf.depKeys x nx hnx c h1
      · exact h1 ▸ hb
    · rw [if_neg hxa] at hc
      exact hwf.depKeys x nx hnx c hc
  · intro x n h c hc
    obtain ⟨nx, hnx, rfl⟩ := addEdge_lookup_cases g a b x n h
    rw [addEdge_keys]
    dsimp only at hc
    by_cases hxb : x = b
    · rw [if_pos hxb] at hc
      rcases setAdd_mem.mp hc with h1 | h1
      · exact hwf.refKeys x nx hnx c h1
      · exact h1 ▸ ha
    · rw [if_neg hxb] at hc
      exact hwf.refKeys x nx hnx c hc
  · intro x nx' y ny' hx hy
    obtain ⟨nx, hnx, rfl⟩ := addEdge_lookup_cases g a b x nx' hx
    obtain ⟨ny, hny, rfl⟩ := addEdge_lookup_cases g a b y ny' hy
    have hbase := hwf.inverse x nx y ny hnx hny
    dsimp only
    by_cases hxa : x = a <;> by_cases hyb : y = b
    · rw [if_pos hxa, if_pos hyb]
      rw [setAdd_mem, setAdd_mem]
      constructor
      · intro _; exact Or.inr hxa
      · intro _; exact Or.inr hyb
    · rw [if_pos hxa, if_neg hyb]
      rw [setAdd_mem]
      constructor
      · intro hmem
        rcases hmem with h1 | h1
        · exact hbase.mp h1
        · exact absurd h1 hyb
      · intro hmem
        exact Or.inl (hbase.mpr hmem)
    · rw [if_neg hxa, if_pos hyb]
      rw [setAdd_mem]
      constructor
      · intro hmem
        exact Or.inl (hbase.mp hmem)
      · intro hmem
        rcases hmem with h1 | h1
        · exact hbase.mpr h1
        · exact absurd h1 hxa
    · rw [if_neg hxa, if_neg hyb]
      exact hbase

theorem addModelEdges_keys (mn : String) (fs : List Field) (g : Graph) :
    (addModelEdges mn fs g).map Prod.fst = g.map Prod.fst := by
  induction fs generalizing g with
  | nil => rfl
  | cons f fs ih =>
      by_cases hc : f.kind = "object" ∧ f.isList = false ∧ f.isRequired = true
      · cases hl : lookupA g f.type with
        | some n =>
            simp only [addModelEdges, if_pos hc, hl]
            rw [ih, addEdge_keys]
        | none =>
            simp only [addModelEdges, if_pos hc, hl]
            exact ih g
      · simp only [addModelEdges, if_neg hc]
        exact ih g

theorem addModelEdges_wf {mn : String} {fs : List Field} {g : Graph}
    (hwf : WFGraph g) (hmn : mn ∈ g.map Prod.fst) :
    WFGraph (addModelEdges mn fs g) := by
  induction fs generalizing g with
  | nil => exact hwf
  | cons f fs ih =>
      by_cases hc : f.kind = "object" ∧ f.isList = false ∧ f.isRequired = true
      · cases hl : lookupA g f.type with
        | some n =>
            simp only [addModelEdges, if_pos hc, hl]
            exact ih (addEdge_wf hwf hmn (lookupA_mem_keys hl))
              (by rw [addEdge_keys]; exact hmn)
        | none =>
            simp only [addModelEdges, if_pos hc, hl]
            exact ih hwf hmn
      · simp only [addModelEdges, if_neg hc]
        exact ih hwf hmn

theorem addAllEdges_keys (ms : List Model) (g : Graph) :
    (addAllEdges ms g).map Prod.fst = g.map Prod.fst := by
  induction ms generalizing g with
  | nil => rfl
  | cons m ms ih =>
      simp only [addAllEdges]
      rw [ih, addModelEdges_keys]

theorem addAllEdges_wf {ms : List Model} {g : Graph} (hwf : WFGraph g)
    (hall : ∀ m ∈ ms, m.name ∈ g.map Prod.fst) :
    WFGraph (addAllEdges ms g) := by
  induction ms generalizing g with
  | nil => exact hwf
  | cons m ms ih =>
      simp only [addAllEdges]
      refine ih (addModelEdges_wf hwf (hall m (List.mem_cons_self _ _))) ?_
      intro m' hm'
      rw [addModelEdges_keys]
      exact hall m' (List.mem_cons_of_mem _ hm')

theorem initNodes_eq (ms : List Model) (g : Graph)
    (hdisj : ∀ m ∈ ms, m.name ∉ g.map Prod.fst)
    (hnd : (ms.map Model.name).Nodup) :
    initNodes ms g = g ++ ms.map (fun m => (m.name, (⟨m.name, [], []⟩ : GNode))) := by
  induction ms generalizing g with
  | nil => simp [initNodes]
  | cons m ms ih =>
      simp only [initNodes]
      rw [objUpsert_of_not_mem _ (hdisj m (List.mem_cons_self _ _))]
      have hnd2 : m.name ∉ ms.map Model.name ∧ (ms.map Model.name).Nodup := by
        rw [List.map_cons, List.nodup_cons] at hnd
        exact hnd
      have hd' : ∀ m' ∈ ms,
          m'.name ∉ (g ++ [(m.name, (⟨m.name, [], []⟩ : GNode))]).map Prod.fst := by
        intro m' hm'
        simp only [List.map_append, List.mem_append]
        push_neg
        refine ⟨hdisj m' (List.mem_cons_of_mem _ hm'), ?_⟩
        have hne : m'.name ≠ m.name := by
          intro hc
          exact hnd2.1 (hc ▸ List.mem_map_of_mem Model.name hm')
        simpa using hne
      rw [ih _ hd' hnd2.2]
      simp

theorem lookupA_initList (ms : List Model) (a : String) (n : GNode)
    (h : lookupA (ms.map (fun m => (m.name, (⟨m.name, [], []⟩ : GNode)))) a = some n) :
    n = ⟨a, [], []⟩ := by
  induction ms with
  | nil => cases h
  | cons m ms ih =>
      simp only [List.map_cons, lookupA] at h
      by_cases hm : m.name = a
      · rw [if_pos hm] at h
        rw [← hm]
        exact (Option.some_inj.mp h).symm
      · rw [if_neg hm] at h
        exact ih h

theorem initList_keys (ms : List Model) :
    ((ms.map (fun m => (m.name, (⟨m.name, [], []⟩ : GNode)))).map Prod.fst) =
      ms.map Model.name := by
  simp [List.map_map]

theorem buildDependencyGraph_keys (models : List Model)
    (hnd : (models.map Model.name).Nodup) :
    (buildDependencyGraph models).map Prod.fst = models.map Model.name := by
  unfold buildDependencyGraph
  rw [addAllEdges_keys, initNodes_eq models [] (by simp) hnd]
  simp only [List.nil_append]
  exact initList_keys models

theorem buildDependencyGraph_wf (models : List Model)
    (hnd : (models.map Model.name).Nodup) :
    WFGraph (buildDependencyGraph models) := by
  have hinit : initNodes models [] =
      models.map (fun m => (m.name, (⟨m.name, [], []⟩ : GNode))) := by
    simpa using initNodes_eq models [] (by simp) hnd
  unfold buildDependencyGraph
  rw [hinit]
  apply addAllEdges_wf
  · constructor
    · rw [initList_keys]
      exact hnd
    · intro a n h
      rw [lookupA_initList _ _ _ h]
      exact List.nodup_nil
    · intro a n h
      rw [lookupA_initList _ _ _ h]
      exact List.nodup_nil
    · intro a n h b hb
      rw [lookupA_initList _ _ _ h] at hb
      cases hb
    · intro a n h b hb
      rw [lookupA_initList _ _ _ h] at hb
      cases hb
    · intro a na b nb ha hb
      rw [lookupA_initList _ _ _ ha, lookupA_initList _ _ _ hb]
      simp
  · intro m hm
    rw [initList_keys]
    exact List.mem_map_of_mem Model.name hm

/-! ### Self-edges in `buildDependencyGraph` -/

theorem addEdge_no_self {g : Graph}
    (hg : ∀ x n, lookupA g x = some n → x ∉ n.dependsOn)
    {a b : String} (hab : a ≠ b) :
    ∀ x n, lookupA (addEdge g a b) x = some n → x ∉ n.dependsOn := by
  intro x n h
  obtain ⟨nx, hnx, rfl⟩ := addEdge_lookup_cases g a b x n h
  dsimp only
  by_cases hxa : x = a
  · rw [if_pos hxa]
    intro hmem
    rcases setAdd_mem.mp hmem with h1 | h1
    · exact hg x nx hnx h1
    · exact hab (hxa.symm.trans h1)
  · rw [if_neg hxa]
    exact hg x nx hnx

theorem addModelEdges_no_self {mn : String} {fs : List Field} {g : Graph}
    (hg : ∀ x n, lookupA g x = some n → x ∉ n.dependsOn)
    (hf : ∀ f ∈ fs, f.kind = "object" → f.isList = false → f.isRequired = true →
      f.type ≠ mn) :
    ∀ x n, lookupA (addModelEdges mn fs g) x = some n → x ∉ n.dependsOn := by
  induction fs generalizing g with
  | nil => exact hg
  | cons f fs ih =>
      by_cases hc : f.kind = "object" ∧ f.isList = false ∧ f.isRequired = true
      · cases hl : lookupA g f.type with
        | some nt =>
            simp only [addModelEdges, if_pos hc, hl]
            refine ih ?_ (fun f' hf' => hf f' (List.mem_cons_of_mem _ hf'))
            exact addEdge_no_self hg
              (Ne.symm (hf f (List.mem_cons_self _ _) hc.1 hc.2.1 hc.2.2))
        | none =>
            simp only [addModelEdges, if_pos hc, hl]
            exact ih hg (fun f' hf' => hf f' (List.mem_cons_of_mem _ hf'))
      · simp only [addModelEdges, if_neg hc]
        exact ih hg (fun f' hf' => hf f' (List.mem_cons_of_mem _ hf'))

theorem addAllEdges_no_self {ms : List Model} {g : Graph}
    (hg : ∀ x n, lookupA g x = some n → x ∉ n.dependsOn)
    (hms : ∀ m ∈ ms, ∀ f ∈ m.fields, f.kind = "object" → f.isList = false →
      f.isRequired = true → f.type ≠ m.name) :
    ∀ x n, lookupA (addAllEdges ms g) x = some n → x ∉ n.dependsOn := by
  induction ms generalizing g with
  | nil => exact hg
  | cons m ms ih =>
      simp only [addAllEdges]
      exact ih
        (addModelEdges_no_self hg (hms m (List.mem_cons_self _ _)))
        (fun m' hm' => hms m' (List.mem_cons_of_mem _ hm'))

theorem initNodes_no_self (ms : List Model) (g : Graph)
    (hg : ∀ x n, lookupA g x = some n → x ∉ n.dependsOn) :
    ∀ x n, lookupA (initNodes ms g) x = some n → x ∉ n.dependsOn := by
  induction ms generalizing g with
  | nil => exact hg
  | cons m ms ih =>
      simp only [initNodes]
      apply ih
      intro x n h
      by_cases hx : x = m.name
      · subst hx
        rw [lookupA_objUpsert_self] at h
        rw [← Option.some_inj.mp h]
        exact List.not_mem_nil _
      · rw [lookupA_objUpsert_ne _ _ hx] at h
        exact hg x n h

/-! ### Payload-assembly lemmas -/

theorem connPairs_eq_map (f : Field) (rec : Record) :
    connPairs f rec = f.relationToFields.map (fun rk => (rk, recLookup rec rk)) := by
  unfold connPairs
  match f.relationToFields with
  | [] => rfl
  | [rk] => rfl
  | rk1 :: rk2 :: rks => rfl

theorem relStep_cases (mdm : MDMap) (modelName : String) (model : Model)
    (f : Field) (d : Data) :
    relStep mdm modelName model f d = d ∨
    ∃ v, relStep mdm modelName model f d = objUpsert d f.name v := by
  unfold relStep
  by_cases h1 : f.kind ≠ "object"
  · rw [if_pos h1]; exact Or.inl rfl
  rw [if_neg h1]
  by_cases h2 : f.type = modelName
  · rw [if_pos h2]; exact Or.inl rfl
  rw [if_neg h2]
  by_cases h3 : f.isList = true
  · rw [if_pos h3]; exact Or.inl rfl
  rw [if_neg h3]
  by_cases h4 : f.relationFromFields = []
  · rw [if_pos h4]; exact Or.inl rfl
  rw [if_neg h4]
  cases hl : lookupA mdm f.type with
  | none =>
      simp only [hl]
      by_cases h5 : anyFKrequired model f = true
      · rw [if_pos h5]; exact Or.inr ⟨_, rfl⟩
      · rw [if_neg h5]; exact Or.inl rfl
  | some related =>
      simp only [hl]
      cases hh : related.createdRecords.head? with
      | some rec => simp only [hh]; exact Or.inr ⟨_, rfl⟩
      | none => simp only [hh]; exact Or.inr ⟨_, rfl⟩

theorem lookupA_relStep_ne {mdm : MDMap} {modelName : String} {model : Model}
    {f : Field} {d : Data} {k : String} (h : k ≠ f.name) :
    lookupA (relStep mdm modelName model f d) k = lookupA d k := by
  rcases relStep_cases mdm modelName model f d with h1 | ⟨v, h1⟩
  · rw [h1]
  · rw [h1, lookupA_objUpsert_ne _ _ h]

theorem relStep_self_skip {mdm : MDMap} {modelName : String} {model : Model}
    {f : Field} {d : Data} (hself : f.type = modelName) :
    relStep mdm modelName model f d = d := by
  unfold relStep
  by_cases h1 : f.kind ≠ "object"
  · rw [if_pos h1]
  · rw [if_neg h1, if_pos hself]

theorem lookupA_relationData_ne {mdm : MDMap} {modelName : String}
    {model : Model} {fs : List Field} {d : Data} {k : String}
    (h : ∀ f ∈ fs, f.name ≠ k) :
    lookupA (relationData mdm modelName model fs d) k = lookupA d k := by
  induction fs generalizing d with
  | nil => rfl
  | cons f0 fs ih =>
      simp only [relationData]
      rw [ih (fun f' hf' => h f' (List.mem_cons_of_mem _ hf')),
        lookupA_relStep_ne (Ne.symm (h f0 (List.mem_cons_self _ _)))]

theorem lookupA_relationData_self_skip {mdm : MDMap} {modelName : String}
    {model : Model} {fs : List Field} {d : Data} {k : String}
    (h : ∀ f' ∈ fs, f'.name = k → f'.type = modelName) :
    lookupA (relationData mdm modelName model fs d) k = lookupA d k := by
  induction fs generalizing d with
  | nil => rfl
  | cons f0 fs ih =>
      simp only [relationData]
      rw [ih (fun f' hf' => h f' (List.mem_cons_of_mem _ hf'))]
      by_cases hname : f0.name = k
      · rw [relStep_self_skip (h f0 (List.mem_cons_self _ _) hname)]
      · rw [lookupA_relStep_ne (Ne.symm hname)]

theorem relationData_connect {mdm : MDMap} {modelName : String} {model : Model}
    {fs : List Field} {d : Data} {f : Field} (hmem : f ∈ fs)
    (hnd : (fs.map Field.name).Nodup)
    (hkind : f.kind = "object") (hne : f.type ≠ modelName)
    (hnl : f.isList = false) (hrff : f.relationFromFields ≠ [])
    {related : ModelData} (hrel : lookupA mdm f.type = some related)
    {rec : Record} (hhead : related.createdRecords.head? = some rec) :
    lookupA (relationData mdm modelName model fs d) f.name =
      some (.connect (connPairs f rec)) := by
  induction fs generalizing d with
  | nil => cases hmem
  | cons f0 fs ih =>
      have hnd2 : f0.name ∉ fs.map Field.name ∧ (fs.map Field.name).Nodup := by
        rw [List.map_cons, List.nodup_cons] at hnd
        exact hnd
      rcases List.mem_cons.mp hmem with rfl | hmem'
      · have hstep : relStep mdm modelName model f d =
            objUpsert d f.name (.connect (connPairs f rec)) := by
          unfold relStep
          rw [if_neg (by simp [hkind]), if_neg hne,
            if_neg (by simp [hnl]), if_neg hrff]
          simp only [hrel, hhead]
        have hrest : ∀ f' ∈ fs, f'.name ≠ f.name := by
          intro f' hf' hc
          exact hnd2.1 (hc ▸ List.mem_map_of_mem Field.name hf')
        simp only [relationData]
        rw [lookupA_relationData_ne hrest, hstep, lookupA_objUpsert_self]
      · simp only [relationData]
        exact ih hmem' hnd2.2

theorem scalarData_prim {env : GenEnv} {model : Model} {fs : List Field}
    {d : Data} {k : String}
    (hd : ∀ v, lookupA d k = some v → ∃ p, v = .prim p) :
    ∀ v, lookupA (scalarData env model fs d) k = some v → ∃ p, v = .prim p := by
  induction fs generalizing d with
  | nil => exact hd
  | cons f fs ih =>
      simp only [scalarData]
      apply ih
      by_cases h1 : f.kind = "scalar" ∧ f.isReadOnly = false
      · rw [if_pos h1]
        by_cases h2 : model.fields.any (fun f2 =>
            decide (f2.kind = "object" ∧ f.name ∈ f2.relationFromFields)) = true
        · rw [if_pos h2]; exact hd
        · rw [if_neg h2]
          intro v hv
          by_cases hk : k = f.name
          · subst hk
            rw [lookupA_objUpsert_self] at hv
            exact ⟨_, (Option.some_inj.mp hv).symm⟩
          · rw [lookupA_objUpsert_ne _ _ hk] at hv
            exact hd v hv
      · rw [if_neg h1]; exact hd

theorem buildCreationData_eq {env : GenEnv} {mdm : MDMap} {name : String}
    {md : ModelData} (h : lookupA mdm name = some md) :
    buildCreationData env mdm name =
      relationData mdm name md.model md.model.fields
        (scalarData env md.model md.model.fields []) := by
  unfold buildCreationData
  rw [h]

/-! ### Variant-3 payload-assembly lemmas -/

theorem relStepV3_cases (mdm : MDMap) (model : Model) (f : Field) (d : Data) :
    relStepV3 mdm model f d = d ∨
    ∃ v, relStepV3 mdm model f d = objUpsert d f.name v := by
  unfold relStepV3
  by_cases h1 : f.kind ≠ "object"
  · rw [if_pos h1]; exact Or.inl rfl
  rw [if_neg h1]
  by_cases h3 : f.isList = true
  · rw [if_pos h3]; exact Or.inl rfl
  rw [if_neg h3]
  by_cases h4 : f.relationFromFields = []
  · rw [if_pos h4]; exact Or.inl rfl
  rw [if_neg h4]
  cases hl : lookupA mdm f.type with
  | none =>
      simp only [hl]
      by_cases h5 : anyFKrequired model f = true
      · rw [if_pos h5]; exact Or.inr ⟨_, rfl⟩
      · rw [if_neg h5]; exact Or.inl rfl
  | some related =>
      simp only [hl]
      cases hh : related.createdRecords.head? with
      | some rec => simp only [hh]; exact Or.inr ⟨_, rfl⟩
      | none =>
          simp only [hh]
          by_cases h5 : anyFKrequired model f = true
          · rw [if_pos h5]; exact Or.inr ⟨_, rfl⟩
          · rw [if_neg h5]; exact Or.inr ⟨_, rfl⟩

theorem lookupA_relStepV3_ne {mdm : MDMap} {model : Model} {f : Field}
    {d : Data} {k : String} (h : k ≠ f.name) :
    lookupA (relStepV3 mdm model f d) k = lookupA d k := by
  rcases relStepV3_cases mdm model f d with h1 | ⟨v, h1⟩
  · rw [h1]
  · rw [h1, lookupA_objUpsert_ne _ _ h]

theorem relStepV3_self_empty {mdm : MDMap} {model : Model} {f : Field}
    {d : Data} {name : String} {md : ModelData} (hty : f.type = name)
    (hmd : lookupA mdm name = some md) (hrec : md.createdRecords = []) :
    relStepV3 mdm model f d = d ∨
    relStepV3 mdm model f d = objUpsert d f.name (.prim .undefined) := by
  unfold relStepV3
  by_cases h1 : f.kind ≠ "object"
  · rw [if_pos h1]; exact Or.inl rfl
  rw [if_neg h1]
  by_cases h3 : f.isList = true
  · rw [if_pos h3]; exact Or.inl rfl
  rw [if_neg h3]
  by_cases h4 : f.relationFromFields = []
  · rw [if_pos h4]; exact Or.inl rfl
  rw [if_neg h4]
  rw [hty]
  simp only [hmd, hrec, List.head?_nil]
  by_cases h5 : anyFKrequired model f = true
  · rw [if_pos h5]; exact Or.inr rfl
  · rw [if_neg h5]; exact Or.inr rfl

theorem lookupA_relationDataV3_self {mdm : MDMap} {name : String}
    {model : Model} {fs : List Field} {d : Data} {k : String} {md : ModelData}
    (hmd : lookupA mdm name = some md) (hrec : md.createdRecords = [])
    (h : ∀ f' ∈ fs, f'.name = k → f'.type = name) :
    lookupA (relationDataV3 mdm model fs d) k = lookupA d k ∨
    lookupA (relationDataV3 mdm model fs d) k = some (.prim .undefined) := by
  induction fs generalizing d with
  | nil => exact Or.inl rfl
  | cons f0 fs ih =>
      simp only [relationDataV3]
      by_cases hname : f0.name = k
      · subst hname
        rcases relStepV3_self_empty (h f0 (List.mem_cons_self _ _) rfl) hmd hrec
            with h1 | h1
        · rw [h1]
          exact ih (fun f' hf' => h f' (List.mem_cons_of_mem _ hf'))
        · rcases ih (d := relStepV3 mdm model f0 d)
              (fun f' hf' => h f' (List.mem_cons_of_mem _ hf')) with h2 | h2
          · rw [h2, h1]
            exact Or.inr (lookupA_objUpsert_self d f0.name _)
          · exact Or.inr h2
      · rcases ih (d := relStepV3 mdm model f0 d)
            (fun f' hf' => h f' (List.mem_cons_of_mem _ hf')) with h2 | h2
        · rw [h2, lookupA_relStepV3_ne (Ne.symm hname)]
          exact Or.inl rfl
        · exact Or.inr h2

theorem scalarDataV3_prim {env : GenEnv} {fs : List Field} {d : Data} {k : String}
    (hd : ∀ v, lookupA d k = some v → ∃ p, v = .prim p) :
    ∀ v, lookupA (scalarDataV3 env fs d) k = some v → ∃ p, v = .prim p := by
  induction fs generalizing d with
  | nil => exact hd
  | cons f fs ih =>
      simp only [scalarDataV3]
      apply ih
      by_cases h1 : f.kind = "scalar" ∧ f.isReadOnly = false
      · rw [if_pos h1]
        intro v hv
        by_cases hk : k = f.name
        · subst hk
          rw [lookupA_objUpsert_self] at hv
          exact ⟨_, (Option.some_inj.mp hv).symm⟩
        · rw [lookupA_objUpsert_ne _ _ hk] at hv
          exact hd v hv
      · rw [if_neg h1]; exact hd

theorem buildCreationDataV3_eq {env : GenEnv} {mdm : MDMap} {name : String}
    {md : ModelData} (h : lookupA mdm name = some md) :
    buildCreationDataV3 env mdm name =
      relationDataV3 mdm md.model md.model.fields
        (scalarDataV3 env md.model.fields []) := by
  unfold buildCreationDataV3
  rw [h]

end Seed

namespace Seed

/-- The run-state invariant of claim C10: a type is flagged `created`
exactly when it holds a record, and the main loop creates at most one
record per type. -/
def InvP (mdm : MDMap) : Prop :=
  ∀ k md, lookupA mdm k = some md →
    (md.created = true ↔ md.createdRecords ≠ []) ∧ md.createdRecords.length ≤ 1

theorem initMDMap_inv (ms : List Model) (acc : MDMap) (hacc : InvP acc) :
    InvP (initMDMap ms acc) := by
  induction ms generalizing acc with
  | nil => exact hacc
  | cons m ms ih =>
      simp only [initMDMap]
      apply ih
      intro k md h
      by_cases hk : k = m.name
      · subst hk
        rw [lookupA_objUpsert_self] at h
        rw [← Option.some_inj.mp h]
        simp
      · rw [lookupA_objUpsert_ne _ _ hk] at h
        exact hacc k md h

theorem tryCreateOneRecord_none {o : Collab} {env : GenEnv} {mdm : MDMap}
    {name : String} {calls : Nat}
    (h : o.create calls name (buildCreationData env mdm name) = none) :
    tryCreateOneRecord o env mdm name calls = (mdm, false) := by
  simp only [tryCreateOneRecord, h]

theorem tryCreateOneRecord_some {o : Collab} {env : GenEnv} {mdm : MDMap}
    {name : String} {calls : Nat} {rec : Record}
    (h : o.create calls name (buildCreationData env mdm name) = some rec) :
    tryCreateOneRecord o env mdm name calls =
      (adjustA mdm name (fun md =>
        { md with createdRecords := md.createdRecords ++ [rec] }), true) := by
  simp only [tryCreateOneRecord, h]

theorem passOnce_inv (o : Collab) (env : GenEnv) (names : List String) :
    ∀ (mdm : MDMap) (calls : Nat) (progress : Bool), InvP mdm →
      InvP (passOnce o env names mdm calls progress).1 := by
  induction names with
  | nil => intro mdm calls progress h; exact h
  | cons n rest ih =>
      intro mdm calls progress h
      simp only [passOnce]
      by_cases hcr : ((lookupA mdm n).map ModelData.created).getD false = true
      · rw [if_pos hcr]
        exact ih mdm calls progress h
      · rw [if_neg hcr]
        cases hor : o.create calls n (buildCreationData env mdm n) with
        | none =>
            rw [tryCreateOneRecord_none hor]
            exact ih _ _ _ h
        | some created =>
            rw [tryCreateOneRecord_some hor]
            apply ih
            show InvP (adjustA (adjustA mdm n (fun md =>
              { md with createdRecords := md.createdRecords ++ [created] })) n
              (fun md => { md with created := true }))
            intro k md hmd
            by_cases hk : k = n
            · subst hk
              rw [lookupA_adjustA_self, lookupA_adjustA_self] at hmd
              cases hbase : lookupA mdm k with
              | none => rw [hbase] at hmd; cases hmd
              | some md0 =>
                  rw [hbase] at hmd
                  simp only [Option.map_some', Option.some_inj] at hmd
                  have hcr0 : md0.created = false := by
                    rw [hbase] at hcr
                    simpa using hcr
                  have hrec0 : md0.createdRecords = [] := by
                    by_contra hc
                    have h2 := (h k md0 hbase).1.mpr hc
                    rw [hcr0] at h2
                    cases h2
                  rw [← hmd]
                  constructor
                  · simp [hrec0]
                  · simp [hrec0]
            · rw [lookupA_adjustA_ne _ _ hk, lookupA_adjustA_ne _ _ hk] at hmd
              exact h k md hmd

theorem passLoop_inv (o : Collab) (env : GenEnv) (names : List String) :
    ∀ (fuel : Nat) (mdm : MDMap) (calls : Nat), InvP mdm →
      InvP (passLoop o env names fuel mdm calls).1 := by
  intro fuel
  induction fuel with
  | zero => intro mdm calls h; exact h
  | succ fuel ih =>
      intro mdm calls h
      simp only [passLoop]
      by_cases hp : (passOnce o env names mdm calls false).2.2 = true
      · rw [if_pos hp]
        exact ih _ _ (passOnce_inv o env names mdm calls false h)
      · rw [if_neg hp]
        exact passOnce_inv o env names mdm calls false h

theorem multiPassCreate_inv (o : Collab) (env : GenEnv) (dmmf : DMMF)
    (maxPasses : Nat) : InvP (multiPassCreate o env dmmf maxPasses).1 := by
  unfold multiPassCreate
  apply passLoop_inv
  apply initMDMap_inv
  intro k md h
  cases h

/-! ### Pass-loop bound lemmas -/

theorem getLast?_cons_ne {α : Type} (a : α) {l : List α} (h : l ≠ []) :
    (a :: l).getLast? = l.getLast? := by
  cases l with
  | nil => exact absurd rfl h
  | cons b t => simp [List.getLast?_cons_cons]

theorem passLoop_spec (o : Collab) (env : GenEnv) (names : List String) :
    ∀ (fuel : Nat) (mdm : MDMap) (calls : Nat),
    (passLoop o env names fuel mdm calls).2.2.length ≤ fuel ∧
    (0 < fuel → (passLoop o env names fuel mdm calls).2.2 ≠ []) ∧
    (∀ i, i + 1 < (passLoop o env names fuel mdm calls).2.2.length →
      (passLoop o env names fuel mdm calls).2.2.get? i = some true) ∧
    ((passLoop o env names fuel mdm calls).2.2.length < fuel →
      (passLoop o env names fuel mdm calls).2.2.getLast? = some false) := by
  intro fuel
  induction fuel with
  | zero =>
      intro mdm calls
      refine ⟨?_, ?_, ?_, ?_⟩ <;> simp [passLoop]
  | succ fuel ih =>
      intro mdm calls
      simp only [passLoop]
      by_cases hp : (passOnce o env names mdm calls false).2.2 = true
      · rw [if_pos hp]
        obtain ⟨ih1, ih2, ih3, ih4⟩ :=
          ih (passOnce o env names mdm calls false).1
            (passOnce o env names mdm calls false).2.1
        refine ⟨by simpa using ih1, fun _ => by simp, ?_, ?_⟩
        · intro i hi
          cases i with
          | zero => rfl
          | succ j =>
              simp only [List.length_cons] at hi
              exact ih3 j (by omega)
        · intro hlen
          simp only [List.length_cons] at hlen
          have hfuel : 0 < fuel := by omega
          have hne := ih2 hfuel
          rw [getLast?_cons_ne _ hne]
          exact ih4 (by omega)
      · rw [if_neg hp]
        refine ⟨by simp, fun _ => by simp, ?_, fun _ => rfl⟩
        intro i hi
        simp only [List.length_singleton] at hi
        omega

/-! ### Remaining helpers for claims -/

theorem wf_of_rank {g : Graph} (rank : String → Nat)
    (h : ∀ b a, edgeRel g b a → rank b < rank a) : AcyclicGraph g :=
  Subrelation.wf (fun {b a} hba => h b a hba) (InvImage.wf rank Nat.lt_wfRel.wf)

theorem demoAcyclic : AcyclicGraph (buildDependencyGraph [demoA, demoB]) := by
  apply wf_of_rank (fun s => if s = "A" then 1 else 0)
  intro b a hba
  obtain ⟨n, hn, hbdep⟩ := hba
  have hkeys : a ∈ (buildDependencyGraph [demoA, demoB]).map Prod.fst :=
    lookupA_mem_keys hn
  have hk2 : (buildDependencyGraph [demoA, demoB]).map Prod.fst = ["A", "B"] := by
    decide
  rw [hk2] at hkeys
  simp only [List.mem_cons, List.mem_singleton, List.not_mem_nil, or_false] at hkeys
  rcases hkeys with rfl | rfl
  · have hn2 : lookupA (buildDependencyGraph [demoA, demoB]) "A" =
        some ⟨"A", ["B"], []⟩ := by decide
    rw [hn2] at hn
    rw [← Option.some_inj.mp hn] at hbdep
    have hb : b = "B" := by simpa using hbdep
    subst hb
    decide
  · have hn2 : lookupA (buildDependencyGraph [demoA, demoB]) "B" =
        some ⟨"B", [], ["A"]⟩ := by decide
    rw [hn2] at hn
    rw [← Option.some_inj.mp hn] at hbdep
    simp at hbdep

theorem eq_of_name_eq {fs : List Field} (hnd : (fs.map Field.name).Nodup)
    {f f' : Field} (hf : f ∈ fs) (hf' : f' ∈ fs) (h : f'.name = f.name) :
    f' = f := by
  induction fs with
  | nil => cases hf
  | cons g gs ih =>
      have hnd2 : g.name ∉ gs.map Field.name ∧ (gs.map Field.name).Nodup := by
        rw [List.map_cons, List.nodup_cons] at hnd
        exact hnd
      rcases List.mem_cons.mp hf with rfl | hf1
      · rcases List.mem_cons.mp hf' with rfl | hf'1
        · rfl
        · exact absurd (h ▸ List.mem_map_of_mem Field.name hf'1) hnd2.1
      · rcases List.mem_cons.mp hf' with rfl | hf'1
        · exact absurd (h ▸ List.mem_map_of_mem Field.name hf1) hnd2.1
        · exact ih hnd2.2 hf1 hf'1

/-! ### The claims -/

/-- Claim C1, counterexample: the claim says `buildDependencyGraph` never
adds a self-relation edge, even for a required, non-list self-relation
field.  On the model `mSelf`, which has exactly such a field, the
builder's node for `S` does list `S` in its own `dependsOn` set, so the
claim as stated is false. -/
theorem C1_counterexample :
    ¬ (∀ a n, lookupA (buildDependencyGraph [mSelf]) a = some n →
        a ∉ n.dependsOn) := by
  intro h
  exact h "S" ⟨"S", ["S"], ["S"]⟩ (by decide) (by decide)

/-- Claim C1, amended: `buildDependencyGraph` adds no self-edge provided
no entity type has a required, non-list object field targeting its own
type; with such a field the self-edge is added (see the
counterexample). -/
theorem C1_no_self_edge_amended (models : List Model)
    (hmodels : ∀ m ∈ models, ∀ f ∈ m.fields, f.kind = "object" →
      f.isList = false → f.isRequired = true → f.type ≠ m.name) :
    ∀ a n, lookupA (buildDependencyGraph models) a = some n →
      a ∉ n.dependsOn := by
  unfold buildDependencyGraph
  exact addAllEdges_no_self
    (initNodes_no_self models [] (fun x n h => by cases h)) hmodels

/-- Witness for the amended C1 at the two-model demo schema. -/
theorem C1_no_self_edge_amended_witness :
    "A" ∉ (⟨"A", ["B"], []⟩ : GNode).dependsOn :=
  C1_no_self_edge_amended [demoA, demoB] (by decide) "A" ⟨"A", ["B"], []⟩
    (by decide)

/-- Claim C2: on an acyclic dependency graph built from the schema, the
topological order places every dependency before its dependent: whenever
node `a` depends on node `b`, `b` occurs strictly before `a` in the
output of `topologicalSort`. -/
theorem C2_topo_order_respects_deps (models : List Model)
    (hnd : (models.map Model.name).Nodup)
    (hacyc : AcyclicGraph (buildDependencyGraph models))
    (a b : String) (na : GNode)
    (ha : lookupA (buildDependencyGraph models) a = some na)
    (hb : b ∈ na.dependsOn) :
    idxOf (topologicalSort (buildDependencyGraph models)) b <
      idxOf (topologicalSort (buildDependencyGraph models)) a ∧
    b ∈ topologicalSort (buildDependencyGraph models) ∧
    a ∈ topologicalSort (buildDependencyGraph models) :=
  topo_prec _ (buildDependencyGraph_wf models hnd) hacyc a b na ha hb

/-- Witness for C2: in the schema where `A` requires `B`, the sort places
`B` before `A`. -/
theorem C2_topo_order_respects_deps_witness :
    idxOf (topologicalSort (buildDependencyGraph [demoA, demoB])) "B" <
      idxOf (topologicalSort (buildDependencyGraph [demoA, demoB])) "A" ∧
    "B" ∈ topologicalSort (buildDependencyGraph [demoA, demoB]) ∧
    "A" ∈ topologicalSort (buildDependencyGraph [demoA, demoB]) :=
  C2_topo_order_respects_deps [demoA, demoB] (by decide) demoAcyclic
    "A" "B" ⟨"A", ["B"], []⟩ (by decide) (by decide)

/-- Claim C3: for every dependency graph, cyclic or not, the output of
`topologicalSort` is a permutation of the entity-type names: each name
appears exactly once. -/
theorem C3_topo_order_permutation (models : List Model)
    (hnd : (models.map Model.name).Nodup) :
    (topologicalSort (buildDependencyGraph models)).Perm
      (models.map Model.name) := by
  have h := topologicalSort_perm_keys _ (buildDependencyGraph_wf models hnd)
  rwa [buildDependencyGraph_keys models hnd] at h

/-- Witness for C3 on a cyclic pair (`X` requires `Y`, `Y` requires `X`):
the output still lists both names exactly once. -/
theorem C3_topo_order_permutation_witness :
    (topologicalSort (buildDependencyGraph [mX, mY])).Perm ["X", "Y"] :=
  C3_topo_order_permutation [mX, mY] (by decide)

/-- Claim C4: for every schema and every collaborator behaviour, the
multi-pass loop runs at most `maxPasses` passes; every pass except
possibly the last creates at least one record, and if fewer than
`maxPasses` passes ran then the final pass created nothing (the early
stop).  The pass list records each executed pass's progress flag. -/
theorem C4_pass_loop_bounded (o : Collab) (env : GenEnv) (dmmf : DMMF)
    (maxPasses : Nat) :
    (multiPassCreate o env dmmf maxPasses).2.2.length ≤ maxPasses ∧
    (∀ i, i + 1 < (multiPassCreate o env dmmf maxPasses).2.2.length →
      (multiPassCreate o env dmmf maxPasses).2.2.get? i = some true) ∧
    ((multiPassCreate o env dmmf maxPasses).2.2.length < maxPasses →
      (multiPassCreate o env dmmf maxPasses).2.2.getLast? = some false) := by
  obtain ⟨h1, h2, h3, h4⟩ := passLoop_spec o env
    (topologicalSort (buildDependencyGraph dmmf.datamodel.models)) maxPasses
    (initMDMap dmmf.datamodel.models []) 0
  exact ⟨h1, h3, h4⟩

/-- Witness for C4: an always-succeeding collaborator on a one-model
schema runs a productive pass and then stops early on the empty pass. -/
theorem C4_pass_loop_bounded_witness :
    (multiPassCreate okOracle env0 ⟨⟨[demoB]⟩⟩ 5).2.2.get? 0 = some true ∧
    (multiPassCreate okOracle env0 ⟨⟨[demoB]⟩⟩ 5).2.2.getLast? = some false :=
  ⟨(C4_pass_loop_bounded okOracle env0 ⟨⟨[demoB]⟩⟩ 5).2.1 0 (by decide),
   (C4_pass_loop_bounded okOracle env0 ⟨⟨[demoB]⟩⟩ 5).2.2 (by decide)⟩

/-- Claim C5: when the collaborator's create call fails,
`tryCreateOneRecord` returns failure without raising and the run-state
map is returned unchanged — no record is appended and, since
`multiPassCreate` only sets the `created` flag on a `true` return, the
flag stays false. -/
theorem C5_failed_create_leaves_state (o : Collab) (env : GenEnv)
    (mdm : MDMap) (name : String) (calls : Nat)
    (hfail : o.create calls name (buildCreationData env mdm name) = none) :
    tryCreateOneRecord o env mdm name calls = (mdm, false) :=
  tryCreateOneRecord_none hfail

/-- Witness for C5 with the always-failing collaborator. -/
theorem C5_failed_create_leaves_state_witness :
    tryCreateOneRecord failOracle env0 [("B", ⟨demoB, [], false⟩)] "B" 0 =
      ([("B", ⟨demoB, [], false⟩)], false) :=
  C5_failed_create_leaves_state failOracle env0
    [("B", ⟨demoB, [], false⟩)] "B" 0 rfl

/-- Claim C6: for a non-list, non-self relation field with a non-empty
`relationFromFields` whose target type already has a created record, the
assembled payload sets that field to a connect instruction mapping each
name in `relationToFields` to that field's value read from the target
type's first created record. -/
theorem C6_connect_first_record (env : GenEnv) (mdm : MDMap) (name : String)
    (md : ModelData) (hmd : lookupA mdm name = some md)
    (hnd : (md.model.fields.map Field.name).Nodup)
    (f : Field) (hf : f ∈ md.model.fields) (hkind : f.kind = "object")
    (hne : f.type ≠ name) (hnl : f.isList = false)
    (hrff : f.relationFromFields ≠ [])
    (related : ModelData) (hrel : lookupA mdm f.type = some related)
    (rec : Record) (rest : List Record)
    (hrecs : related.createdRecords = rec :: rest) :
    lookupA (buildCreationData env mdm name) f.name =
      some (.connect (f.relationToFields.map (fun rk => (rk, recLookup rec rk)))) := by
  rw [buildCreationData_eq hmd, ← connPairs_eq_map]
  exact relationData_connect hf hnd hkind hne hnl hrff hrel
    (by rw [hrecs]; rfl)

/-- Witness for C6: `A`'s payload connects its `b` field to `B`'s first
created record by its `id`. -/
theorem C6_connect_first_record_witness :
    lookupA (buildCreationData env0 demoMDM "A") "b" =
      some (.connect [("id", .str "b1")]) :=
  C6_connect_first_record env0 demoMDM "A" ⟨demoA, [], false⟩ rfl (by decide)
    (fRel "b" "B" true "bId") (by decide) rfl (by decide) rfl (by decide)
    ⟨demoB, [demoRecB], true⟩ rfl demoRecB [] rfl

/-- Claim C7: main-pass payload assembly never assigns a connect
instruction to a self-relation field.  In variant 1 (`buildCreationData`)
self-relation fields are skipped outright, for any run state; in variant
3's inline assembly the same holds whenever the owning type has no
created record yet — which is the case at every main-loop attempt, since
a type is only attempted while not yet created (claim C10). -/
theorem C7_no_self_connect_in_payload (env : GenEnv) (mdm : MDMap)
    (name : String) (md : ModelData) (hmd : lookupA mdm name = some md)
    (hnd : (md.model.fields.map Field.name).Nodup)
    (f : Field) (hf : f ∈ md.model.fields) (hkind : f.kind = "object")
    (hself : f.type = name) :
    (∀ ps, lookupA (buildCreationData env mdm name) f.name ≠
      some (.connect ps)) ∧
    (md.createdRecords = [] →
      ∀ ps, lookupA (buildCreationDataV3 env mdm name) f.name ≠
        some (.connect ps)) := by
  have honly : ∀ f' ∈ md.model.fields, f'.name = f.name → f'.type = name := by
    intro f' hf' hname
    rw [eq_of_name_eq hnd hf hf' hname]
    exact hself
  constructor
  · intro ps hps
    rw [buildCreationData_eq hmd, lookupA_relationData_self_skip honly] at hps
    obtain ⟨p, hp⟩ :=
      scalarData_prim (d := []) (fun v hv => by cases hv) _ hps
    simp at hp
  · intro hrec ps hps
    rw [buildCreationDataV3_eq hmd] at hps
    rcases lookupA_relationDataV3_self hmd hrec honly with h1 | h1
    · rw [h1] at hps
      obtain ⟨p, hp⟩ :=
        scalarDataV3_prim (d := []) (fun v hv => by cases hv) _ hps
      simp at hp
    · rw [h1] at hps
      simp at hps

/-- Witness for C7 at the self-relation model `S`. -/
theorem C7_no_self_connect_in_payload_witness :
    lookupA (buildCreationData env0 selfMDM "S") "s" ≠
      some (.connect [("id", .str "x")]) :=
  (C7_no_self_connect_in_payload env0 selfMDM "S" ⟨mSelf, [], false⟩ rfl
    (by decide) (fRel "s" "S" true "sId") (by decide) rfl rfl).1
    [("id", .str "x")]

/-- Claim C8: with `maxPasses = 5`, a linear required-dependency chain of
depth 5 (each type's creation succeeding exactly when its required
connection to the previous type is present, the dependency being carried
by a required foreign key whose relation field is optional in the
metadata, so the ordering cannot pre-solve it; models listed
deepest-first) is fully created in exactly 5 productive passes, while
with depth 6 the deepest type `M6` remains uncreated when the run
ends. -/
theorem C8_chain_depth_experiment :
    ((multiPassCreate chainOracle env0 ⟨⟨chain5⟩⟩ 5).2.2 =
        [true, true, true, true, true] ∧
      (multiPassCreate chainOracle env0 ⟨⟨chain5⟩⟩ 5).1.all
        (fun p => p.2.created) = true) ∧
    ((multiPassCreate chainOracle env0 ⟨⟨chain6⟩⟩ 5).2.2 =
        [true, true, true, true, true] ∧
      (lookupA (multiPassCreate chainOracle env0 ⟨⟨chain6⟩⟩ 5).1 "M6").map
        ModelData.created = some false) := by
  decide

/-- Claim C9: `generateSeedData` attempts the persistence client's
disconnect on every exit path (the `finally`), and an error escapes the
entry operation exactly when the schema load failed. -/
theorem C9_disconnect_on_every_path (o : Collab) (env : GenEnv)
    (loadResult : Except String DMMF) :
    (generateSeedData o env loadResult).2 = true ∧
    (∀ e, (generateSeedData o env loadResult).1 = .error e ↔
      loadResult = .error e) := by
  cases loadResult with
  | error e => exact ⟨rfl, fun e' => by simp [generateSeedData]⟩
  | ok d => exact ⟨rfl, fun e' => by simp [generateSeedData]⟩

/-- Claim C10: the run-state invariant — the `created` flag is true
exactly when `createdRecords` is non-empty and at most one record is
created per type — is preserved by every pass and holds of the map
`multiPassCreate` returns. -/
theorem C10_run_state_invariant :
    (∀ (o : Collab) (env : GenEnv) (names : List String) (mdm : MDMap)
        (calls : Nat) (progress : Bool), InvP mdm →
        InvP (passOnce o env names mdm calls progress).1) ∧
    (∀ (o : Collab) (env : GenEnv) (dmmf : DMMF) (maxPasses : Nat),
        InvP (multiPassCreate o env dmmf maxPasses).1) :=
  ⟨fun o env names mdm calls progress h =>
      passOnce_inv o env names mdm calls progress h,
   fun o env dmmf maxPasses => multiPassCreate_inv o env dmmf maxPasses⟩

/-- Witness for C10 at the state reached for `B` by the always-succeeding
collaborator. -/
theorem C10_run_state_invariant_witness :
    (mdB1.created = true ↔ mdB1.createdRecords ≠ []) ∧
      mdB1.createdRecords.length ≤ 1 :=
  C10_run_state_invariant.2 okOracle env0 ⟨⟨[demoB]⟩⟩ 5 "B" mdB1 (by decide)

end Seed
